import Mathlib

/-!
Shallow embedding of the constraint-aware search core of the
curriculum-based course timetabling solver (files
`src/data_structures/timetabling.py`, `src/data_structures/graph.py`,
`src/algorithms/grasp.py`, `src/algorithms/coloring.py`,
`src/algorithms/timetabling_solver.py`, `experimental.py`), together with
theorems settling the testable properties of its specification.

Modelling conventions:
- Python `dict`s become association lists `List (key × value)` (Python
  dicts preserve insertion order, which the embedded folds preserve);
  lookups are `List.lookup`; a `d[k]` access that can raise `KeyError`
  is modelled in the `Except Unit` / `Option` monad.
- Python `set`s whose iteration order is irrelevant become `Finset ℕ`.
- `float` preference values become `ℚ` (the claims under study concern
  which preferences are counted, not rounding).
- Unbounded `while` loops become fuel-indexed recursions returning
  `Option`/`Except`; a `some`/`ok` result corresponds to a terminating
  Python run.
- Calls to `random.shuffle`/`random.choice` are modelled by explicit
  ordering/choice oracles passed as arguments, so theorems quantify over
  every possible random draw.
-/

deriving instance DecidableEq for Except

namespace TT

/-- Embeds `CourseSection` (timetabling.py): a section of a course with a
per-curriculum student count, stored as an insertion-ordered dict. -/
structure CourseSection where
  id : ℕ
  course_name : String
  section_id : ℕ
  curriculum_students : List (ℕ × ℕ)
deriving DecidableEq

/-- Embeds the `total_students` property: sum of `curriculum_students` values. -/
def CourseSection.total_students (s : CourseSection) : ℕ :=
  (s.curriculum_students.map Prod.snd).sum

/-- Embeds the `curriculum_ids` property: the key set of `curriculum_students`. -/
def CourseSection.curriculum_ids (s : CourseSection) : Finset ℕ :=
  (s.curriculum_students.map Prod.fst).toFinset

/-- Embeds `Room` (timetabling.py). -/
structure Room where
  id : ℕ
  name : String
  capacity : ℕ
  availability : Finset ℕ
deriving DecidableEq

/-- Embeds `Teacher` (timetabling.py); `course_names` is the set of courses
the teacher is qualified to teach. -/
structure Teacher where
  id : ℕ
  name : String
  course_names : List String
  availability : Finset ℕ
deriving DecidableEq

/-- Embeds `Curriculum` (timetabling.py). -/
structure Curriculum where
  id : ℕ
  name : String
  num_students : ℕ
  course_names : List String
deriving DecidableEq

/-- Embeds `Preference` (timetabling.py). The dataclass annotates `period`
as `int`, but both `add_preference` call sites and the GRASP candidate
scorer pass and test `None`, so all three match fields are optional. -/
structure Preference where
  course_name : String
  period : Option ℕ
  room_name : Option String
  teacher_name : Option String
  value : ℚ
deriving DecidableEq

/-- Embeds `Assignment` (timetabling.py). -/
structure Assignment where
  section_id : ℕ
  period : ℕ
  room_id : ℕ
  teacher_id : ℕ
deriving DecidableEq

/-- Embeds the attribute state of a `TimetablingInstance` object as set up
by `TimetablingInstance.__init__`. The extra field `preferred_periods`
models the dynamically accessed attribute of the same name that
`GRASPTimetabling._evaluate_candidate` (grasp.py:194) and
`GeneticAlgorithmTimetabling._local_search` (experimental.py:639) read:
`__init__` never assigns it, so on a plain instance it is `none` and a
Python read raises `AttributeError`. -/
structure TimetablingInstance where
  course_sections : List (ℕ × CourseSection)
  course_base_info : List (String × List ℕ)
  rooms : List (ℕ × Room)
  teachers : List (ℕ × Teacher)
  curriculums : List (ℕ × Curriculum)
  periods : Finset ℕ
  preferences : List Preference
  assignments : List (ℕ × Assignment)
  preferred_periods : Option (List (String × Finset ℕ))
  next_section_id : ℕ
  next_room_id : ℕ
  next_teacher_id : ℕ
  next_curriculum_id : ℕ
deriving DecidableEq

/-- Embeds `TimetablingInstance.__init__`: the freshly constructed instance. -/
def emptyInstance : TimetablingInstance :=
  ⟨[], [], [], [], [], ∅, [], [], none, 1, 1, 1, 1⟩

/-- Embeds `TimetablingInstance.add_room`: registers a room and unions its
availability into `instance.periods`; returns the new instance and id. -/
def add_room (I : TimetablingInstance) (name : String) (capacity : ℕ)
    (available_periods : List ℕ) : TimetablingInstance × ℕ :=
  let room_id := I.next_room_id
  let room : Room := ⟨room_id, name, capacity, available_periods.toFinset⟩
  (⟨I.course_sections, I.course_base_info, I.rooms ++ [(room_id, room)],
    I.teachers, I.curriculums, I.periods ∪ room.availability, I.preferences,
    I.assignments, I.preferred_periods, I.next_section_id, room_id + 1,
    I.next_teacher_id, I.next_curriculum_id⟩, room_id)

/-- Embeds `TimetablingInstance.add_teacher`: registers a teacher and unions
its availability into `instance.periods`; returns the new instance and id. -/
def add_teacher (I : TimetablingInstance) (name : String)
    (course_names : List String) (available_periods : List ℕ) :
    TimetablingInstance × ℕ :=
  let teacher_id := I.next_teacher_id
  let teacher : Teacher := ⟨teacher_id, name, course_names, available_periods.toFinset⟩
  (⟨I.course_sections, I.course_base_info, I.rooms,
    I.teachers ++ [(teacher_id, teacher)], I.curriculums,
    I.periods ∪ teacher.availability, I.preferences, I.assignments,
    I.preferred_periods, I.next_section_id, I.next_room_id, teacher_id + 1,
    I.next_curriculum_id⟩, teacher_id)

/-- A registration call: one `add_room` or `add_teacher` invocation. -/
inductive RegOp where
  | room (name : String) (capacity : ℕ) (available_periods : List ℕ)
  | teacher (name : String) (course_names : List String) (available_periods : List ℕ)
deriving DecidableEq

/-- Applies one registration call to an instance. -/
def applyRegOp (I : TimetablingInstance) : RegOp → TimetablingInstance
  | RegOp.room n c a => (add_room I n c a).1
  | RegOp.teacher n cs a => (add_teacher I n cs a).1

/-- Applies a sequence of registration calls, first op first. -/
def applyRegOps (I : TimetablingInstance) : List RegOp → TimetablingInstance
  | [] => I
  | op :: ops => applyRegOps (applyRegOp I op) ops

/-- The union of the availability sets of all registered rooms and teachers. -/
def availabilityUnion (I : TimetablingInstance) : Finset ℕ :=
  (I.rooms.map (fun r => r.2.availability)).foldr (· ∪ ·) ∅ ∪
    (I.teachers.map (fun t => t.2.availability)).foldr (· ∪ ·) ∅

/-- Embeds the preference-matching test inside
`TimetablingInstance.calculate_objective` (timetabling.py:445-448): a plain
chained `==` comparison of all fields, evaluated with Python short-circuit
order; the room and teacher dict subscripts can raise `KeyError`, modelled
as `Except.error`. A `None` field compares unequal to every name/period. -/
def prefMatchesCode (I : TimetablingInstance) (sec : CourseSection)
    (a : Assignment) (p : Preference) : Except Unit Bool :=
  if p.course_name = sec.course_name ∧ p.period = some a.period then
    match List.lookup a.room_id I.rooms with
    | none => Except.error ()
    | some room =>
      if p.room_name = some room.name then
        match List.lookup a.teacher_id I.teachers with
        | none => Except.error ()
        | some t => Except.ok (decide (p.teacher_name = some t.name))
      else Except.ok false
  else Except.ok false

/-- Embeds the inner preference loop of `calculate_objective`: the first
matching preference contributes its value and the loop breaks. -/
def objFirstMatch (I : TimetablingInstance) (sec : CourseSection)
    (a : Assignment) : List Preference → Except Unit ℚ
  | [] => Except.ok 0
  | p :: rest =>
    match prefMatchesCode I sec a p with
    | Except.error e => Except.error e
    | Except.ok true => Except.ok p.value
    | Except.ok false => objFirstMatch I sec a rest

/-- Embeds the outer assignment loop of `calculate_objective`, accumulating
`total_value`; assignments whose section id is absent are skipped. -/
def calcObjGo (I : TimetablingInstance) :
    List (ℕ × Assignment) → ℚ → Except Unit ℚ
  | [], acc => Except.ok acc
  | (sid, a) :: rest, acc =>
    match List.lookup sid I.course_sections with
    | none => calcObjGo I rest acc
    | some sec =>
      match objFirstMatch I sec a I.preferences with
      | Except.error e => Except.error e
      | Except.ok v => calcObjGo I rest (acc + v)

/-- Embeds `TimetablingInstance.calculate_objective` (timetabling.py:434-452). -/
def calculate_objective (I : TimetablingInstance) : Except Unit ℚ :=
  calcObjGo I I.assignments 0

/-- Written from the spec sentence of claim C1: a preference matches when
`course_name` equals the section's course and every non-null one of
`period`/`room_name`/`teacher_name` equals the assignment's corresponding
attribute (a null field matches anything). -/
def specPrefMatches (I : TimetablingInstance) (sec : CourseSection)
    (a : Assignment) (p : Preference) : Bool :=
  (p.course_name = sec.course_name : Bool) &&
    (p.period = none ∨ p.period = some a.period : Bool) &&
    (match p.room_name with
     | none => true
     | some n => ((List.lookup a.room_id I.rooms).map Room.name = some n : Bool)) &&
    (match p.teacher_name with
     | none => true
     | some n => ((List.lookup a.teacher_id I.teachers).map Teacher.name = some n : Bool))

/-- Written from the spec sentences of claim C1: the objective as the sum,
over assignments whose section exists, of the value of the first
preference (in list order) that matches under null-as-wildcard semantics. -/
def spec_objective (I : TimetablingInstance) : ℚ :=
  (I.assignments.map (fun e =>
    match List.lookup e.1 I.course_sections with
    | none => 0
    | some sec =>
      ((I.preferences.find? (fun p => specPrefMatches I sec e.2 p)).map
        Preference.value).getD 0)).sum

/-- The strict-equality matching the source actually performs: every one of
the three optional fields must be non-null and equal to the assignment's
attribute (so a preference with any null field matches nothing). -/
def strictPrefMatches (I : TimetablingInstance) (sec : CourseSection)
    (a : Assignment) (p : Preference) : Bool :=
  p.course_name = sec.course_name ∧ p.period = some a.period ∧
    (List.lookup a.room_id I.rooms).map Room.name = p.room_name ∧
    (List.lookup a.teacher_id I.teachers).map Teacher.name = p.teacher_name

/-- The objective under strict (no-wildcard) first-match semantics. -/
def strict_objective (I : TimetablingInstance) : ℚ :=
  (I.assignments.map (fun e =>
    match List.lookup e.1 I.course_sections with
    | none => 0
    | some sec =>
      ((I.preferences.find? (fun p => strictPrefMatches I sec e.2 p)).map
        Preference.value).getD 0)).sum

/-- Concrete instance separating wildcard matching from the code: one
section of course A assigned period 1, room R1, teacher T1, and a single
preference on course A, period 1, room `None`, teacher T1, value 10. -/
def exC1 : TimetablingInstance :=
  ⟨[(1, ⟨1, "A", 0, [(1, 10)]⟩)], [("A", [1])],
   [(1, ⟨1, "R1", 50, {1}⟩)], [(1, ⟨1, "T1", ["A"], {1}⟩)],
   [(1, ⟨1, "C1", 10, ["A"]⟩)], {1},
   [⟨"A", some 1, none, some "T1", 10⟩],
   [(1, ⟨1, 1, 1, 1⟩)], none, 2, 2, 2, 2⟩

/-- Embeds the conflict loop shared verbatim by
`GRASPTimetabling._is_candidate_feasible` (grasp.py:161-175) and
`GeneticAlgorithmTimetabling._is_candidate_feasible`
(experimental.py:548-557): for every already-placed assignment in the same
period, reject a shared teacher, a shared room, or intersecting
curriculum id sets; the `course_sections[assigned_section_id]` subscript
can raise `KeyError`, modelled as `none`. -/
def conflictScan (I : TimetablingInstance) (sec : CourseSection)
    (period room_id teacher_id : ℕ) : List (ℕ × Assignment) → Option Bool
  | [] => some true
  | (asid, a) :: rest =>
    if a.period = period then
      if a.teacher_id = teacher_id then some false
      else if a.room_id = room_id then some false
      else
        match List.lookup asid I.course_sections with
        | none => none
        | some asec =>
          if sec.curriculum_ids ∩ asec.curriculum_ids ≠ ∅ then some false
          else conflictScan I sec period room_id teacher_id rest
    else conflictScan I sec period room_id teacher_id rest

/-- Embeds `GRASPTimetabling._is_candidate_feasible` (grasp.py:141-177):
room capacity, room availability, teacher availability, then the conflict
scan. Note the function performs no teacher-qualification check. -/
def grasp_is_candidate_feasible (I : TimetablingInstance)
    (section_id period room_id teacher_id : ℕ)
    (current_assignments : List (ℕ × Assignment)) : Option Bool :=
  match List.lookup section_id I.course_sections, List.lookup room_id I.rooms,
      List.lookup teacher_id I.teachers with
  | some sec, some room, some teacher =>
    if room.capacity < sec.total_students then some false
    else if period ∉ room.availability then some false
    else if period ∉ teacher.availability then some false
    else conflictScan I sec period room_id teacher_id current_assignments
  | _, _, _ => none

/-- Embeds `GeneticAlgorithmTimetabling._is_candidate_feasible`
(experimental.py:537-558): teacher qualification first, then room capacity,
room availability, teacher availability, then the same conflict scan. -/
def ga_is_candidate_feasible (I : TimetablingInstance)
    (section_id period room_id teacher_id : ℕ)
    (current_assignments : List (ℕ × Assignment)) : Option Bool :=
  match List.lookup section_id I.course_sections, List.lookup room_id I.rooms,
      List.lookup teacher_id I.teachers with
  | some sec, some room, some teacher =>
    if sec.course_name ∉ teacher.course_names then some false
    else if room.capacity < sec.total_students then some false
    else if period ∉ room.availability then some false
    else if period ∉ teacher.availability then some false
    else conflictScan I sec period room_id teacher_id current_assignments
  | _, _, _ => none

/-- I2 per-assignment check: the teacher is qualified for the section's
course (vacuous when the section or teacher id does not resolve, matching
the guards of `check_hard_constraints`). -/
def chkI2 (I : TimetablingInstance) (e : ℕ × Assignment) : Bool :=
  match List.lookup e.1 I.course_sections, List.lookup e.2.teacher_id I.teachers with
  | some sec, some t => sec.course_name ∈ t.course_names
  | _, _ => true

/-- I3 per-assignment check: the period lies in the room's and the
teacher's availability. -/
def chkI3 (I : TimetablingInstance) (e : ℕ × Assignment) : Bool :=
  (match List.lookup e.2.room_id I.rooms with
   | some room => (e.2.period ∈ room.availability : Bool)
   | none => true) &&
  (match List.lookup e.2.teacher_id I.teachers with
   | some t => (e.2.period ∈ t.availability : Bool)
   | none => true)

/-- I4 per-assignment check: room capacity at least the section's students. -/
def chkI4 (I : TimetablingInstance) (e : ℕ × Assignment) : Bool :=
  match List.lookup e.1 I.course_sections, List.lookup e.2.room_id I.rooms with
  | some sec, some room => sec.total_students ≤ room.capacity
  | _, _ => true

/-- I5 pair check: two assignments in the same period use distinct teachers. -/
def relI5 (e1 e2 : ℕ × Assignment) : Bool :=
  e1.2.period ≠ e2.2.period ∨ e1.2.teacher_id ≠ e2.2.teacher_id

/-- I6 pair check: two assignments in the same period use distinct rooms. -/
def relI6 (e1 e2 : ℕ × Assignment) : Bool :=
  e1.2.period ≠ e2.2.period ∨ e1.2.room_id ≠ e2.2.room_id

/-- I7 pair check: two same-period assignments have disjoint curriculum ids. -/
def relI7 (I : TimetablingInstance) (e1 e2 : ℕ × Assignment) : Bool :=
  if e1.2.period = e2.2.period then
    match List.lookup e1.1 I.course_sections, List.lookup e2.1 I.course_sections with
    | some s1, some s2 => s1.curriculum_ids ∩ s2.curriculum_ids = ∅
    | _, _ => true
  else true

/-- I2 over an assignment set. -/
abbrev satI2 (I : TimetablingInstance) (A : List (ℕ × Assignment)) : Prop :=
  ∀ e ∈ A, chkI2 I e = true

/-- I3 over an assignment set. -/
abbrev satI3 (I : TimetablingInstance) (A : List (ℕ × Assignment)) : Prop :=
  ∀ e ∈ A, chkI3 I e = true

/-- I4 over an assignment set. -/
abbrev satI4 (I : TimetablingInstance) (A : List (ℕ × Assignment)) : Prop :=
  ∀ e ∈ A, chkI4 I e = true

/-- I5 over an assignment set: pairwise over the entry list. -/
abbrev satI5 (A : List (ℕ × Assignment)) : Prop :=
  A.Pairwise (fun e1 e2 => relI5 e1 e2 = true)

/-- I6 over an assignment set. -/
abbrev satI6 (A : List (ℕ × Assignment)) : Prop :=
  A.Pairwise (fun e1 e2 => relI6 e1 e2 = true)

/-- I7 over an assignment set. -/
abbrev satI7 (I : TimetablingInstance) (A : List (ℕ × Assignment)) : Prop :=
  A.Pairwise (fun e1 e2 => relI7 I e1 e2 = true)

/-- Concrete instance showing the missing I2 check: teacher 1 is qualified
for no course at all, yet every other feasibility condition holds. -/
def exC2 : TimetablingInstance :=
  ⟨[(1, ⟨1, "A", 0, [(1, 10)]⟩)], [("A", [1])],
   [(1, ⟨1, "R1", 50, {1}⟩)], [(1, ⟨1, "T1", [], {1}⟩)],
   [(1, ⟨1, "C1", 10, ["A"]⟩)], {1}, [], [], none, 2, 2, 2, 2⟩

/-- Concrete instance where teacher 1 is qualified for course A; used to
witness the amended candidate-feasibility consistency theorem. -/
def exC2w : TimetablingInstance :=
  ⟨[(1, ⟨1, "A", 0, [(1, 10)]⟩), (2, ⟨2, "B", 0, [(2, 20)]⟩)], [("A", [1]), ("B", [2])],
   [(1, ⟨1, "R1", 50, {1, 2}⟩)], [(1, ⟨1, "T1", ["A", "B"], {1, 2}⟩)],
   [(1, ⟨1, "C1", 10, ["A"]⟩), (2, ⟨2, "C2", 20, ["B"]⟩)], {1, 2}, [],
   [], none, 3, 2, 2, 3⟩

/-- Python exception kinds the embedded code can raise. -/
inductive PyError where
  | keyError
  | attributeError
  | zeroDivisionError
deriving DecidableEq

/-- Embeds the generic repair scan over one candidate triple list: the
first triple the feasibility predicate accepts is returned; a `none` from
the predicate is a propagated `KeyError`. -/
def scanTriples (feas : ℕ → ℕ → ℕ → ℕ → List (ℕ × Assignment) → Option Bool)
    (sid : ℕ) (others : List (ℕ × Assignment)) :
    List (ℕ × ℕ × ℕ) → Option (Option (ℕ × ℕ × ℕ))
  | [] => some none
  | (p, r, t) :: rest =>
    match feas sid p r t others with
    | none => none
    | some true => some (some (p, r, t))
    | some false => scanTriples feas sid others rest

/-- Enumerates a period set as an ascending list; stands in for Python's
arbitrary-but-fixed `set` iteration order, and is kernel-computable. -/
def sortedPeriods (s : Finset ℕ) : List ℕ :=
  (List.range (s.sup id + 1)).filter (fun p => p ∈ s)

/-- Teachers qualified for a section's course, in registration order
(grasp.py:451-454 and experimental.py:567-570). -/
def qualifiedTeachers (I : TimetablingInstance) (sec : CourseSection) : List ℕ :=
  (I.teachers.filter (fun e => sec.course_name ∈ e.2.course_names)).map Prod.fst

/-- One pass of `_repair_assignments` (grasp.py:446-474 and
experimental.py:562-591): iterate the snapshot of section ids; replace each
assignment failing the feasibility predicate by the first feasible triple
from the shuffled period-room-teacher product. `shuffle k l` models the
k-th `random.shuffle` call of the run; the pass threads the call counter
and the changed flag and propagates `KeyError` as `none`. -/
def repairPassGo (I : TimetablingInstance)
    (feas : ℕ → ℕ → ℕ → ℕ → List (ℕ × Assignment) → Option Bool)
    (shuffle : ℕ → List ℕ → List ℕ) :
    List ℕ → List (ℕ × Assignment) → Bool → ℕ →
      Option (List (ℕ × Assignment) × Bool × ℕ)
  | [], A, changed, cnt => some (A, changed, cnt)
  | sid :: rest, A, changed, cnt =>
    match List.lookup sid A with
    | none => none
    | some a =>
      let others := A.filter (fun e => ¬ e.1 = sid)
      match feas sid a.period a.room_id a.teacher_id others with
      | none => none
      | some true => repairPassGo I feas shuffle rest A changed cnt
      | some false =>
        match List.lookup sid I.course_sections with
        | none => none
        | some sec =>
          let periods := shuffle cnt (sortedPeriods I.periods)
          let rooms := shuffle (cnt + 1) (I.rooms.map Prod.fst)
          let teachers := shuffle (cnt + 2) (qualifiedTeachers I sec)
          let triples := periods.flatMap (fun p =>
            rooms.flatMap (fun r => teachers.map (fun t => (p, r, t))))
          match scanTriples feas sid others triples with
          | none => none
          | some none => repairPassGo I feas shuffle rest A changed (cnt + 3)
          | some (some (p, r, t)) =>
            let A2 := A.map (fun e =>
              if e.1 = sid then (e.1, Assignment.mk e.2.section_id p r t) else e)
            repairPassGo I feas shuffle rest A2 true (cnt + 3)

/-- Embeds the `while changed` fixpoint of `_repair_assignments`: repeat
full passes until one reports no change; `fuel` bounds the number of
passes (the Python loop is unbounded and may not converge, in which case
every fuel value yields `none`). -/
def repairLoop (I : TimetablingInstance)
    (feas : ℕ → ℕ → ℕ → ℕ → List (ℕ × Assignment) → Option Bool)
    (shuffle : ℕ → List ℕ → List ℕ) :
    ℕ → List (ℕ × Assignment) → ℕ → Option (List (ℕ × Assignment))
  | 0, _, _ => none
  | fuel + 1, A, cnt =>
    match repairPassGo I feas shuffle (A.map Prod.fst) A false cnt with
    | none => none
    | some (A2, changed, cnt2) =>
      if changed then repairLoop I feas shuffle fuel A2 cnt2 else some A2

/-- Embeds `TimetablingInstance._find_room_by_name`: the id of the first
room with the given name. -/
def find_room_by_name (I : TimetablingInstance) (name : String) : Option ℕ :=
  (I.rooms.find? (fun e => e.2.name = name)).map Prod.fst

/-- Embeds `TimetablingInstance._find_teacher_by_name`. -/
def find_teacher_by_name (I : TimetablingInstance) (name : String) : Option ℕ :=
  (I.teachers.find? (fun e => e.2.name = name)).map Prod.fst

/-- Embeds the wildcard matching of `_evaluate_candidate`
(grasp.py:204-229): a `None` field matches anything, names are resolved to
ids through the find-by-name helpers and compared against the candidate. -/
def candMatches (I : TimetablingInstance) (period room_id teacher_id : ℕ)
    (p : Preference) : Bool :=
  (match p.period with
   | none => true
   | some pp => (pp = period : Bool)) &&
  (match p.room_name with
   | none => true
   | some rn => (find_room_by_name I rn = some room_id : Bool)) &&
  (match p.teacher_name with
   | none => true
   | some tn => (find_teacher_by_name I tn = some teacher_id : Bool))

/-- Embeds `GRASPTimetabling._evaluate_candidate` (grasp.py:179-230).
The very first scoring step reads `self.instance.preferred_periods`
(line 194); on a plain `TimetablingInstance` that attribute was never
assigned and the read raises `AttributeError`. The section and room
subscripts before it can raise `KeyError`, and the wasted-space ratio
divides by the room capacity. -/
def evaluate_candidate (I : TimetablingInstance)
    (section_id period room_id teacher_id : ℕ) : Except PyError ℚ :=
  match List.lookup section_id I.course_sections with
  | none => Except.error PyError.keyError
  | some sec =>
    match List.lookup room_id I.rooms with
    | none => Except.error PyError.keyError
    | some room =>
      match I.preferred_periods with
      | none => Except.error PyError.attributeError
      | some pp =>
        let preferred := (List.lookup sec.course_name pp).getD ∅
        let cost0 : ℚ := if preferred ≠ ∅ ∧ period ∉ preferred then 1 else 0
        if room.capacity = 0 then Except.error PyError.zeroDivisionError
        else
          let wasted : ℚ :=
            ((room.capacity : ℚ) - (sec.total_students : ℚ)) / (room.capacity : ℚ)
          let cost1 := cost0 + wasted * (1 / 2)
          Except.ok (I.preferences.foldl (fun c p =>
            if p.course_name = sec.course_name ∧
                candMatches I period room_id teacher_id p then
              c - p.value
            else c) cost1)

/-- The candidate triple enumeration of `_generate_candidates`
(grasp.py:127-129): periods, then rooms in registration order, then
qualified teachers. -/
def graspTriples (I : TimetablingInstance) (sec : CourseSection) :
    List (ℕ × ℕ × ℕ) :=
  (sortedPeriods I.periods).flatMap (fun p =>
    (I.rooms.map Prod.fst).flatMap (fun r =>
      (qualifiedTeachers I sec).map (fun t => (p, r, t))))

/-- The candidate loop of `_generate_candidates` (grasp.py:126-137): each
feasible triple is scored by `_evaluate_candidate`; any raised exception
propagates. -/
def genCandGo (I : TimetablingInstance) (sid : ℕ)
    (A : List (ℕ × Assignment)) :
    List (ℕ × ℕ × ℕ) → Except PyError (List (ℕ × ℕ × ℕ × ℚ))
  | [] => Except.ok []
  | (p, r, t) :: rest =>
    match grasp_is_candidate_feasible I sid p r t A with
    | none => Except.error PyError.keyError
    | some false => genCandGo I sid A rest
    | some true =>
      match evaluate_candidate I sid p r t with
      | Except.error e => Except.error e
      | Except.ok cost =>
        match genCandGo I sid A rest with
        | Except.error e => Except.error e
        | Except.ok cs => Except.ok ((p, r, t, cost) :: cs)

/-- Embeds `GRASPTimetabling._generate_candidates` (grasp.py:109-139). -/
def generate_candidates (I : TimetablingInstance) (sid : ℕ)
    (A : List (ℕ × Assignment)) : Except PyError (List (ℕ × ℕ × ℕ × ℚ)) :=
  match List.lookup sid I.course_sections with
  | none => Except.error PyError.keyError
  | some sec => genCandGo I sid A (graspTriples I sec)

/-- Embeds the candidate-collection loop of the conflict-free branch of
`GeneticAlgorithmTimetabling._local_search` (experimental.py:636-643): for
each assigned section it subscripts `course_sections` and then reads
`self.instance.preferred_periods` (line 639), collecting the sections not
in their preferred period. -/
def ga_preferred_scan (I : TimetablingInstance) :
    List (ℕ × Assignment) → Except PyError (List ℕ)
  | [] => Except.ok []
  | (sid, a) :: rest =>
    match List.lookup sid I.course_sections with
    | none => Except.error PyError.keyError
    | some sec =>
      match I.preferred_periods with
      | none => Except.error PyError.attributeError
      | some pp =>
        let pref := (List.lookup sec.course_name pp).getD ∅
        match ga_preferred_scan I rest with
        | Except.error e => Except.error e
        | Except.ok cs =>
          if pref ≠ ∅ ∧ a.period ∉ pref then Except.ok (sid :: cs)
          else Except.ok cs

/-- Sum of the per-curriculum student counts of a section-content dict. -/
def sectionSum (m : List (ℕ × ℕ)) : ℕ := (m.map Prod.snd).sum

/-- Embeds the `while students > max_capacity` peeling loop of
`_split_course_into_sections` (timetabling.py:241-245 and 279-281): emit
full sections of exactly `maxCap` students until the remainder fits. The
loop is unbounded when `maxCap = 0`; `fuel` (instantiated with the student
count) bounds it, and exhaustion mid-loop yields `none`. -/
def peelF (maxCap : ℕ) : ℕ → ℕ → Option (ℕ × ℕ)
  | 0, s => if maxCap < s then none else some (0, s)
  | f + 1, s =>
    if maxCap < s then
      match peelF maxCap f (s - maxCap) with
      | none => none
      | some (n, r) => some (n + 1, r)
    else some (0, s)

/-- Embeds the first loop of `_split_course_into_sections`
(timetabling.py:240-249): peel full single-curriculum sections off every
oversized count and record the remainder back into the dict. -/
def peelAll (maxCap : ℕ) :
    List (ℕ × ℕ) → Option (List (List (ℕ × ℕ)) × List (ℕ × ℕ))
  | [] => some ([], [])
  | (cid, students) :: rest =>
    match peelF maxCap students students with
    | none => none
    | some (n, r) =>
      match peelAll maxCap rest with
      | none => none
      | some (secs, updated) =>
        some (List.replicate n [(cid, maxCap)] ++ secs, (cid, r) :: updated)

/-- Stable descending insertion by student count: the element is placed
before the first entry with a smaller-or-equal count, matching the stable
`sort(key=count, reverse=True)` of timetabling.py:257. -/
def insertDesc (x : ℕ × ℕ) : List (ℕ × ℕ) → List (ℕ × ℕ)
  | [] => [x]
  | y :: ys => if y.2 ≤ x.2 then x :: y :: ys else y :: insertDesc x ys

/-- Stable descending sort by student count. -/
def sortDesc : List (ℕ × ℕ) → List (ℕ × ℕ)
  | [] => []
  | x :: xs => insertDesc x (sortDesc xs)

/-- Embeds the greedy packing loop of `_split_course_into_sections`
(timetabling.py:259-291), threading the open section and its running
total; the defensive oversized branch re-peels with `peelF`. -/
def greedyPack (maxCap : ℕ) :
    List (ℕ × ℕ) → List (ℕ × ℕ) → ℕ → Option (List (List (ℕ × ℕ)))
  | [], current, _ => some (if current.isEmpty then [] else [current])
  | (cid, students) :: rest, current, currentTotal =>
    if currentTotal + students ≤ maxCap then
      greedyPack maxCap rest (current ++ [(cid, students)]) (currentTotal + students)
    else
      let headChunk : List (List (ℕ × ℕ)) :=
        if current.isEmpty then [] else [current]
      if students ≤ maxCap then
        match greedyPack maxCap rest [(cid, students)] students with
        | none => none
        | some secs => some (headChunk ++ secs)
      else
        match peelF maxCap students students with
        | none => none
        | some (n, r) =>
          if 0 < r then
            match greedyPack maxCap rest [(cid, r)] r with
            | none => none
            | some secs =>
              some (headChunk ++ List.replicate n [(cid, maxCap)] ++ secs)
          else
            match greedyPack maxCap rest [] 0 with
            | none => none
            | some secs =>
              some (headChunk ++ List.replicate n [(cid, maxCap)] ++ secs)

/-- Embeds `TimetablingInstance._split_course_into_sections`
(timetabling.py:237-293). -/
def split_course_into_sections (maxCap : ℕ)
    (curriculum_students : List (ℕ × ℕ)) : Option (List (List (ℕ × ℕ))) :=
  match peelAll maxCap curriculum_students with
  | none => none
  | some (secs, updated) =>
    let remaining := updated.filter (fun e => 0 < e.2)
    if remaining.isEmpty then some secs
    else
      match greedyPack maxCap (sortDesc remaining) [] 0 with
      | none => none
      | some packed => some (secs ++ packed)

/-- The maximum room capacity (timetabling.py:186). -/
def maxCapacity (I : TimetablingInstance) : ℕ :=
  (I.rooms.map (fun e => e.2.capacity)).foldl Nat.max 0

/-- The per-curriculum student dict built for one course
(timetabling.py:199-206): registered curriculum ids only, in the course's
stored id order, each mapped to its `num_students`. -/
def courseCurriculumStudents (I : TimetablingInstance)
    (curriculum_ids : List ℕ) : List (ℕ × ℕ) :=
  curriculum_ids.filterMap (fun cid =>
    match List.lookup cid I.curriculums with
    | some cur => some (cid, cur.num_students)
    | none => none)

/-- Embeds the course loop of `create_course_sections`
(timetabling.py:192-235), threading `_next_section_id`. -/
def createGo (I : TimetablingInstance) (maxCap : ℕ) :
    List (String × List ℕ) → ℕ → Option (List CourseSection)
  | [], _ => some []
  | (course_name, curriculum_ids) :: rest, nextId =>
    if curriculum_ids.isEmpty then createGo I maxCap rest nextId
    else
      let curriculum_students := courseCurriculumStudents I curriculum_ids
      let total := sectionSum curriculum_students
      if total = 0 then createGo I maxCap rest nextId
      else if total ≤ maxCap then
        match createGo I maxCap rest (nextId + 1) with
        | none => none
        | some secs =>
          some (CourseSection.mk nextId course_name 0 curriculum_students :: secs)
      else
        match split_course_into_sections maxCap curriculum_students with
        | none => none
        | some contents =>
          match createGo I maxCap rest (nextId + contents.length) with
          | none => none
          | some secs =>
            some ((contents.enum.map (fun x =>
              CourseSection.mk (nextId + x.1) course_name (x.1 + 1) x.2)) ++ secs)

/-- Embeds `TimetablingInstance.create_course_sections`
(timetabling.py:180-235); `none` covers both the zero-rooms `ValueError`
and the non-terminating zero-capacity split. -/
def create_course_sections (I : TimetablingInstance) :
    Option (List CourseSection) :=
  if I.rooms.isEmpty then none
  else createGo I (maxCapacity I) I.course_base_info 1

/-- Concrete instance for the section-splitting property: one course A
with two 60-student curriculums and one room of capacity 100. -/
def exC3 : TimetablingInstance :=
  ⟨[], [("A", [1, 2])], [(1, ⟨1, "R1", 100, {1}⟩)], [],
   [(1, ⟨1, "C1", 60, ["A"]⟩), (2, ⟨2, "C2", 60, ["A"]⟩)], {1}, [], [],
   none, 1, 2, 1, 3⟩

/-- The sections `create_course_sections` produces on `exC3`: the
120-student course splits into two sections of 60. -/
def exC3sections : List CourseSection :=
  [⟨1, "A", 1, [(1, 60)]⟩, ⟨2, "A", 2, [(2, 60)]⟩]

/-- Embeds the candidate enumeration of `solve_timetabling_bruteforce`
(timetabling_solver.py:249-270): qualified teachers (falling back to all
teachers when none qualifies), then all (period, room, teacher) triples
passing capacity and availability; the `teachers[tid]` subscript always
succeeds because every enumerated id is a registered key. -/
def bruteCandidates (I : TimetablingInstance) (sec : CourseSection) :
    List (ℕ × ℕ × ℕ) :=
  let qualified0 := qualifiedTeachers I sec
  let qualified := if qualified0.isEmpty then I.teachers.map Prod.fst else qualified0
  (sortedPeriods I.periods).flatMap (fun p =>
    I.rooms.flatMap (fun re =>
      if re.2.capacity < sec.total_students then []
      else if p ∉ re.2.availability then []
      else qualified.filterMap (fun tid =>
        match List.lookup tid I.teachers with
        | none => none
        | some teach =>
          if p ∉ teach.availability then none else some (p, re.1, tid))))

/-- Stable ascending insertion by key, matching Python's stable
`sorted(..., key=...)` used for the fail-first section order. -/
def insertAscBy (key : ℕ → ℕ) (x : ℕ) : List ℕ → List ℕ
  | [] => [x]
  | y :: ys => if key x ≤ key y then x :: y :: ys else y :: insertAscBy key x ys

/-- Stable ascending sort by key. -/
def sortAscBy (key : ℕ → ℕ) : List ℕ → List ℕ
  | [] => []
  | x :: xs => insertAscBy key x (sortAscBy key xs)

/-- The mutable search state of `solve_timetabling_bruteforce`
(timetabling_solver.py:275-278): the three used-sets and the partial
assignment dict. -/
structure BTState where
  used_room_period : Finset (ℕ × ℕ)
  used_teacher_period : Finset (ℕ × ℕ)
  used_curr_period : Finset (ℕ × ℕ)
  result_assignments : List (ℕ × Assignment)
deriving DecidableEq

/-- Embeds the nested `conflicts` closure (timetabling_solver.py:280-291). -/
def btConflicts (I : TimetablingInstance) (st : BTState)
    (sid p r t : ℕ) : Option Bool :=
  if (r, p) ∈ st.used_room_period then some true
  else if (t, p) ∈ st.used_teacher_period then some true
  else
    match List.lookup sid I.course_sections with
    | none => none
    | some sec =>
      some (decide (∃ c ∈ sec.curriculum_ids, (c, p) ∈ st.used_curr_period))

/-- Embeds the nested `place` closure (timetabling_solver.py:293-299); the
matching `unplace` is realised by keeping the pre-place state, which undoes
exactly the insertions `place` performed. -/
def btPlace (I : TimetablingInstance) (st : BTState)
    (sid p r t : ℕ) : Option BTState :=
  match List.lookup sid I.course_sections with
  | none => none
  | some sec =>
    some ⟨insert (r, p) st.used_room_period,
      insert (t, p) st.used_teacher_period,
      st.used_curr_period ∪ sec.curriculum_ids.image (fun c => (c, p)),
      st.result_assignments ++ [(sid, Assignment.mk sid p r t)]⟩

/-- The candidate loop inside `dfs` (timetabling_solver.py:319-325),
parameterized by the continuation that descends into the remaining
sections; structural in the candidate list. -/
def btTry (I : TimetablingInstance)
    (recurse : BTState → ℕ → Option (Bool × BTState × ℕ)) (sid : ℕ) :
    List (ℕ × ℕ × ℕ) → BTState → ℕ → Option (Bool × BTState × ℕ)
  | [], st, cnt => some (false, st, cnt)
  | (p, r, t) :: more, st, cnt =>
    match btConflicts I st sid p r t with
    | none => none
    | some true => btTry I recurse sid more st cnt
    | some false =>
      match btPlace I st sid p r t with
      | none => none
      | some st2 =>
        match recurse st2 cnt with
        | none => none
        | some (true, st3, cnt2) => some (true, st3, cnt2)
        | some (false, _, cnt2) => btTry I recurse sid more st cnt2

/-- Embeds the `dfs` recursion (timetabling_solver.py:311-326): the
wall-clock check at each recursion entry is modelled by the oracle
`timedOut` indexed by a threaded entry counter; a timed-out or exhausted
branch reports `false` with the pre-branch state, and the undo of `place`
is realised by continuing from the kept pre-place state. -/
def btDfs (I : TimetablingInstance) (cands : ℕ → List (ℕ × ℕ × ℕ))
    (timedOut : ℕ → Bool) :
    List ℕ → BTState → ℕ → Option (Bool × BTState × ℕ)
  | sids, st, cnt =>
    if timedOut cnt then some (false, st, cnt + 1)
    else
      match sids with
      | [] => some (true, st, cnt + 1)
      | sid :: rest =>
        btTry I (fun st2 c => btDfs I cands timedOut rest st2 c) sid
          (cands sid) st (cnt + 1)

/-- The candidate list of one section id (timetabling_solver.py:249-270);
every id passed in comes from `course_sections`, so the lookup succeeds. -/
def bruteCandsFor (I : TimetablingInstance) (sid : ℕ) : List (ℕ × ℕ × ℕ) :=
  match List.lookup sid I.course_sections with
  | none => []
  | some sec => bruteCandidates I sec

/-- The fail-first section order (timetabling_solver.py:273): section ids
stably sorted by ascending candidate count. -/
def btOrdered (I : TimetablingInstance) : List ℕ :=
  sortAscBy (fun sid => (bruteCandsFor I sid).length)
    (I.course_sections.map Prod.fst)

/-- Embeds `solve_timetabling_bruteforce` (timetabling_solver.py:240-330)
up to elapsed-time bookkeeping: candidates per section, fail-first stable
ordering by candidate count, depth-first search with per-entry timeout
check, and the final `(found, result_assignments if found else {})`. -/
def solve_timetabling_bruteforce (I : TimetablingInstance)
    (timedOut : ℕ → Bool) : Option (Bool × List (ℕ × Assignment)) :=
  match btDfs I (bruteCandsFor I) timedOut (btOrdered I) ⟨∅, ∅, ∅, []⟩ 0 with
  | none => none
  | some (found, st, _) =>
    some (found, if found then st.result_assignments else [])

/-- The room filter of `solve_timetabling_with_graph_coloring`
(timetabling_solver.py:215-218): rooms available in the period whose
cumulative occupied seats still leave space for the section; the
`used_capacity[period][rid]` subscript (reached only when the room is
available in the period, by `and` short-circuit) raises `KeyError` when
the period key is absent. -/
def availRoomsGo (usedCap : List ((ℕ × ℕ) × ℕ)) (period students : ℕ) :
    List (ℕ × Room) → Except Unit (List ℕ)
  | [] => Except.ok []
  | (rid, room) :: rest =>
    if period ∉ room.availability then availRoomsGo usedCap period students rest
    else
      match List.lookup (period, rid) usedCap with
      | none => Except.error ()
      | some used =>
        match availRoomsGo usedCap period students rest with
        | Except.error e => Except.error e
        | Except.ok others =>
          Except.ok (if used + students ≤ room.capacity then rid :: others
            else others)

/-- The teacher filter of the driver (timetabling_solver.py:226-229):
qualified, available in the period, and not yet used in the period. -/
def availTeachers (I : TimetablingInstance) (usedT : List ℕ) (period : ℕ)
    (cname : String) : List ℕ :=
  (I.teachers.filter (fun e => cname ∈ e.2.course_names ∧
    period ∈ e.2.availability ∧ e.1 ∉ usedT)).map Prod.fst

/-- Adds consumed seats to one (period, room) cell of `used_capacity`. -/
def bumpUsedCap (usedCap : List ((ℕ × ℕ) × ℕ)) (key : ℕ × ℕ)
    (amount : ℕ) : List ((ℕ × ℕ) × ℕ) :=
  usedCap.map (fun e => if e.1 = key then (e.1, e.2 + amount) else e)

/-- Marks a teacher as used in a period. -/
def addUsedTeacher (ut : List (ℕ × List ℕ)) (period tid : ℕ) :
    List (ℕ × List ℕ) :=
  ut.map (fun e => if e.1 = period then (e.1, tid :: e.2) else e)

/-- The `used_capacity` table initialised to zero for every period and
room (timetabling_solver.py:207). -/
def initUsedCap (I : TimetablingInstance) : List ((ℕ × ℕ) × ℕ) :=
  (sortedPeriods I.periods).flatMap (fun p =>
    I.rooms.map (fun re => ((p, re.1), 0)))

/-- The `used_teachers` table initialised empty for every period
(timetabling_solver.py:208). -/
def initUsedTeach (I : TimetablingInstance) : List (ℕ × List ℕ) :=
  (sortedPeriods I.periods).map (fun p => (p, []))

/-- The section loop of `solve_timetabling_with_graph_coloring`
(timetabling_solver.py:210-237): period from the coloring with default 1,
first surviving room (its capacity consumed immediately), then first
surviving teacher; a section with no room or no teacher is skipped and
stays unassigned. -/
def driverGo (I : TimetablingInstance) (sectionPeriods : List (ℕ × ℕ)) :
    List (ℕ × CourseSection) → List ((ℕ × ℕ) × ℕ) → List (ℕ × List ℕ) →
      List (ℕ × Assignment) → Except Unit (List (ℕ × Assignment))
  | [], _, _, acc => Except.ok acc
  | (sid, sec) :: rest, usedCap, usedTeach, acc =>
    let period := (List.lookup sid sectionPeriods).getD 1
    match availRoomsGo usedCap period sec.total_students I.rooms with
    | Except.error e => Except.error e
    | Except.ok rooms =>
      match rooms with
      | [] => driverGo I sectionPeriods rest usedCap usedTeach acc
      | room_id :: _ =>
        let usedCap2 := bumpUsedCap usedCap (period, room_id) sec.total_students
        match List.lookup period usedTeach with
        | none => Except.error ()
        | some usedT =>
          match availTeachers I usedT period sec.course_name with
          | [] => driverGo I sectionPeriods rest usedCap2 usedTeach acc
          | teacher_id :: _ =>
            driverGo I sectionPeriods rest usedCap2
              (addUsedTeacher usedTeach period teacher_id)
              (acc ++ [(sid, Assignment.mk sid period room_id teacher_id)])

/-- Embeds the assignment-reconstruction part of
`solve_timetabling_with_graph_coloring` (timetabling_solver.py:181-237),
taking the section-to-period map extracted from the coloring as input. -/
def solve_timetabling_with_graph_coloring (I : TimetablingInstance)
    (sectionPeriods : List (ℕ × ℕ)) : Except Unit (List (ℕ × Assignment)) :=
  driverGo I sectionPeriods I.course_sections (initUsedCap I)
    (initUsedTeach I) []

/-- Failing input for room sharing in the driver: one room of capacity
100, two 30-student sections of different courses both colored into
period 1, and one qualified teacher per course. -/
def exC8 : TimetablingInstance :=
  ⟨[(1, ⟨1, "A", 0, [(1, 30)]⟩), (2, ⟨2, "B", 0, [(2, 30)]⟩)],
   [("A", [1]), ("B", [2])], [(1, ⟨1, "R1", 100, {1}⟩)],
   [(1, ⟨1, "T1", ["A"], {1}⟩), (2, ⟨2, "T2", ["B"], {1}⟩)],
   [(1, ⟨1, "C1", 30, ["A"]⟩), (2, ⟨2, "C2", 30, ["B"]⟩)], {1}, [], [],
   none, 3, 2, 3, 3⟩

/-- One hard-constraint violation message of `check_hard_constraints`
(timetabling.py:326-432); the constructors abstract the formatted
human-readable strings, one value per emitted message. -/
inductive Violation where
  | missingSections (sids : List ℕ)
  | invalidPeriod (sid period : ℕ)
  | teacherOverlap (tid period : ℕ) (sids : List ℕ)
  | curriculumOverlap (cid period : ℕ) (sids : List ℕ)
  | roomOverlap (rid period : ℕ) (sids : List ℕ)
  | notQualified (sid : ℕ)
  | teacherUnavailable (sid : ℕ)
  | roomUnavailable (sid : ℕ)
  | capacityExceeded (sid : ℕ)
deriving DecidableEq

/-- Appends a section id to its group, keeping first-occurrence key order
as a Python dict of lists does. -/
def addToGroup : List ((ℕ × ℕ) × List ℕ) → (ℕ × ℕ) → ℕ →
    List ((ℕ × ℕ) × List ℕ)
  | [], key, sid => [(key, [sid])]
  | (k, sids) :: rest, key, sid =>
    if k = key then (k, sids ++ [sid]) :: rest
    else (k, sids) :: addToGroup rest key sid

/-- Groups assignments by a key (teacher-period or room-period). -/
def groupAssignments (f : ℕ × Assignment → ℕ × ℕ)
    (A : List (ℕ × Assignment)) : List ((ℕ × ℕ) × List ℕ) :=
  A.foldl (fun acc e => addToGroup acc (f e) e.1) []

/-- Groups assignments by (curriculum, period) pairs
(timetabling.py:362-369); the `course_sections[section_id]` subscript can
raise `KeyError`. -/
def curriculumGroups (I : TimetablingInstance) :
    List (ℕ × Assignment) → List ((ℕ × ℕ) × List ℕ) →
      Except Unit (List ((ℕ × ℕ) × List ℕ))
  | [], acc => Except.ok acc
  | (sid, a) :: rest, acc =>
    match List.lookup sid I.course_sections with
    | none => Except.error ()
    | some sec =>
      curriculumGroups I rest
        ((sortedPeriods sec.curriculum_ids).foldl
          (fun acc2 cid => addToGroup acc2 (cid, a.period) sid) acc)

/-- Every listed section id resolves (the violation messages subscript
`course_sections[sid]` to render names). -/
def allSectionsExist (I : TimetablingInstance) (sids : List ℕ) : Bool :=
  sids.all (fun sid => (List.lookup sid I.course_sections).isSome)

/-- Overlap messages for groups of more than one section; the entity and
section subscripts used by the message formatting can raise `KeyError`. -/
def overlapViolations (exists1 : ℕ → Bool) (I : TimetablingInstance)
    (mk : ℕ → ℕ → List ℕ → Violation) :
    List ((ℕ × ℕ) × List ℕ) → Except Unit (List Violation)
  | [] => Except.ok []
  | ((x, period), sids) :: rest =>
    if sids.length > 1 then
      if exists1 x ∧ allSectionsExist I sids then
        match overlapViolations exists1 I mk rest with
        | Except.error e => Except.error e
        | Except.ok vs => Except.ok (mk x period sids :: vs)
      else Except.error ()
    else overlapViolations exists1 I mk rest

/-- Qualification messages (timetabling.py:395-402): the section subscript
can raise `KeyError`; a missing teacher is skipped by the `if teacher`
guard. -/
def qualViolations (I : TimetablingInstance) :
    List (ℕ × Assignment) → Except Unit (List Violation)
  | [] => Except.ok []
  | (sid, a) :: rest =>
    match List.lookup sid I.course_sections with
    | none => Except.error ()
    | some sec =>
      match qualViolations I rest with
      | Except.error e => Except.error e
      | Except.ok vs =>
        match List.lookup a.teacher_id I.teachers with
        | none => Except.ok vs
        | some teach =>
          if sec.course_name ∉ teach.course_names then
            Except.ok (Violation.notQualified sid :: vs)
          else Except.ok vs

/-- Availability messages (timetabling.py:404-418): per assignment the
teacher check then the room check, both through safe `.get` lookups. -/
def availViolations (I : TimetablingInstance)
    (A : List (ℕ × Assignment)) : List Violation :=
  A.flatMap (fun e =>
    (match List.lookup e.2.teacher_id I.teachers with
     | some teach =>
       if e.2.period ∉ teach.availability then
         [Violation.teacherUnavailable e.1]
       else []
     | none => []) ++
    (match List.lookup e.2.room_id I.rooms with
     | some room =>
       if e.2.period ∉ room.availability then [Violation.roomUnavailable e.1]
       else []
     | none => []))

/-- Capacity messages (timetabling.py:420-429), all through safe `.get`. -/
def capViolations (I : TimetablingInstance)
    (A : List (ℕ × Assignment)) : List Violation :=
  A.filterMap (fun e =>
    match List.lookup e.2.room_id I.rooms, List.lookup e.1 I.course_sections with
    | some room, some sec =>
      if room.capacity < sec.total_students then
        some (Violation.capacityExceeded e.1)
      else none
    | _, _ => none)

/-- Embeds `TimetablingInstance.check_hard_constraints`
(timetabling.py:326-432): the single missing-sections message, then — when
any assignment exists — invalid periods, teacher overlaps, curriculum
overlaps, room overlaps, qualification, availability and capacity
messages, in source order; feasible iff no message. -/
def check_hard_constraints (I : TimetablingInstance) :
    Except Unit (Bool × List Violation) :=
  let missing := (I.course_sections.map Prod.fst).filter
    (fun sid => (List.lookup sid I.assignments).isNone)
  let v0 : List Violation :=
    if missing.isEmpty then [] else [Violation.missingSections missing]
  if I.assignments.isEmpty then Except.ok (v0.isEmpty, v0)
  else
    let vper := I.assignments.filterMap (fun e =>
      if e.2.period ∉ I.periods then
        some (Violation.invalidPeriod e.1 e.2.period)
      else none)
    match overlapViolations
        (fun tid => (List.lookup tid I.teachers).isSome) I
        Violation.teacherOverlap
        (groupAssignments (fun e => (e.2.teacher_id, e.2.period))
          I.assignments) with
    | Except.error e => Except.error e
    | Except.ok vteach =>
      match curriculumGroups I I.assignments [] with
      | Except.error e => Except.error e
      | Except.ok cgroups =>
        match overlapViolations
            (fun cid => (List.lookup cid I.curriculums).isSome) I
            Violation.curriculumOverlap cgroups with
        | Except.error e => Except.error e
        | Except.ok vcurr =>
          match overlapViolations
              (fun rid => (List.lookup rid I.rooms).isSome) I
              Violation.roomOverlap
              (groupAssignments (fun e => (e.2.room_id, e.2.period))
                I.assignments) with
          | Except.error e => Except.error e
          | Except.ok vroom =>
            match qualViolations I I.assignments with
            | Except.error e => Except.error e
            | Except.ok vqual =>
              let all := v0 ++ vper ++ vteach ++ vcurr ++ vroom ++ vqual ++
                availViolations I I.assignments ++
                capViolations I I.assignments
              Except.ok (all.isEmpty, all)

/-- The instance with its `assignments` field swapped, as the temporary
mutation in `_evaluate_solution` (grasp.py:416-417) does. -/
def withAssignments (I : TimetablingInstance)
    (A : List (ℕ × Assignment)) : TimetablingInstance :=
  ⟨I.course_sections, I.course_base_info, I.rooms, I.teachers,
   I.curriculums, I.periods, I.preferences, A, I.preferred_periods,
   I.next_section_id, I.next_room_id, I.next_teacher_id,
   I.next_curriculum_id⟩

/-- Embeds `GRASPSolution` (grasp.py:8-20). -/
structure GRASPSolution where
  assignments : List (ℕ × Assignment)
  cost : ℚ
  is_feasible : Bool
  violations : List Violation
deriving DecidableEq

/-- Embeds `GRASPTimetabling._evaluate_solution` (grasp.py:413-441):
check the hard constraints, take the objective as the cost, and when
infeasible repair, re-check, re-take the objective and add
`1000 · |violations|` if still infeasible. The cost is the objective
value itself — the code performs no negation. `shuffle`/`fuel` drive the
embedded repair loop. -/
def evaluate_solution (I : TimetablingInstance)
    (shuffle : ℕ → List ℕ → List ℕ) (fuel : ℕ)
    (A : List (ℕ × Assignment)) : Except Unit GRASPSolution :=
  let I1 := withAssignments I A
  match check_hard_constraints I1 with
  | Except.error e => Except.error e
  | Except.ok (feas, viol) =>
    match calculate_objective I1 with
    | Except.error e => Except.error e
    | Except.ok cost =>
      if feas then Except.ok ⟨A, cost, feas, viol⟩
      else
        match repairLoop I1 (grasp_is_candidate_feasible I1) shuffle fuel A 0 with
        | none => Except.error ()
        | some repaired =>
          let I2 := withAssignments I repaired
          match check_hard_constraints I2 with
          | Except.error e => Except.error e
          | Except.ok (feas2, viol2) =>
            match calculate_objective I2 with
            | Except.error e => Except.error e
            | Except.ok cost2 =>
              if feas2 then Except.ok ⟨repaired, cost2, feas2, viol2⟩
              else
                Except.ok ⟨repaired, cost2 + 1000 * viol2.length, feas2, viol2⟩

/-- Feasible instance with a fully matching preference of value 10: the
single assignment satisfies all hard constraints and the objective is 10. -/
def exC5 : TimetablingInstance :=
  ⟨[(1, ⟨1, "A", 0, [(1, 10)]⟩)], [("A", [1])],
   [(1, ⟨1, "R1", 50, {1}⟩)], [(1, ⟨1, "T1", ["A"], {1}⟩)],
   [(1, ⟨1, "C1", 10, ["A"]⟩)], {1},
   [⟨"A", some 1, some "R1", some "T1", 10⟩],
   [], none, 2, 2, 2, 2⟩

/-- Embeds `GraphInstance` (graph.py): vertex ids and the adjacency dict.
The class keeps `adj_list` symmetric (both `__post_init__` and `add_edge`
insert both directions) and its documented edge invariant `u < v` rules
out self-loops; theorems take these as hypotheses. -/
structure GraphInstance where
  vertices : Finset ℕ
  adj_list : List (ℕ × Finset ℕ)

/-- Embeds `get_neighbors`: `adj_list.get(v, set())`. -/
def getNeighbors (G : GraphInstance) (v : ℕ) : Finset ℕ :=
  (List.lookup v G.adj_list).getD ∅

/-- Embeds `get_degree`: the size of the adjacency set. -/
def getDegree (G : GraphInstance) (v : ℕ) : ℕ := (getNeighbors G v).card

/-- The colors of the already-colored neighbors of `v`
(coloring.py:41-44, 121-124): one entry per colored neighbor; the
algorithms only test membership, so duplicates are harmless. -/
def neighborColors (G : GraphInstance) (colors : List (ℕ × ℕ)) (v : ℕ) :
    List ℕ :=
  (sortedPeriods (getNeighbors G v)).filterMap (fun u => List.lookup u colors)

/-- The `while color in used: color += 1` search (coloring.py:47-49,
127-129), fuelled: among `1 .. used.length + 1` some color is free, so
the fuel `used.length + 1` is never exhausted. -/
def firstFreeGo (used : List ℕ) : ℕ → ℕ → ℕ
  | c, 0 => c
  | c, f + 1 => if c ∈ used then firstFreeGo used (c + 1) f else c

/-- The smallest color from 1 absent from `used`. -/
def firstFreeColor (used : List ℕ) : ℕ := firstFreeGo used 1 (used.length + 1)

/-- Colors one vertex with the smallest color unused by its colored
neighbors, the shared step of greedy and DSATUR; the dict write
`colors[v] = color` is a cons, which shadows any earlier binding exactly
as the Python assignment overwrites. -/
def assignSmallest (G : GraphInstance) (colors : List (ℕ × ℕ)) (v : ℕ) :
    List (ℕ × ℕ) :=
  (v, firstFreeColor (neighborColors G colors v)) :: colors

/-- Embeds `greedy_coloring` (coloring.py:6-61) with its default
`max_colors = None`; `order` is the visiting order (ascending vertex ids
by default, an arbitrary permutation when `randomize` shuffles). -/
def greedy_coloring (G : GraphInstance) (order : List ℕ) : List (ℕ × ℕ) :=
  order.foldl (fun colors v => assignSmallest G colors v) []

/-- The default visiting order `sorted(vertices)` of `greedy_coloring`. -/
def defaultOrder (G : GraphInstance) : List ℕ := sortedPeriods G.vertices

/-- The max-collecting fold shared by the DSATUR and RLF selection loops
(coloring.py:93-115, 170-184): running maximum with the list of all
argument values attaining it, starting from `-1`. -/
def collectMax (f : ℕ → ℤ) (l : List ℕ) : ℤ × List ℕ :=
  l.foldl (fun acc v =>
    if f v > acc.1 then (f v, [v])
    else if f v = acc.1 then (acc.1, acc.2 ++ [v])
    else acc) (-1, [])

/-- Embeds the `saturation` closure (coloring.py:79-88): `-1` for colored
vertices, otherwise the number of distinct neighbor colors. -/
def saturation (G : GraphInstance) (vertex_color : List (ℕ × ℕ))
    (X : Finset ℕ) (v : ℕ) : ℤ :=
  if v ∉ X then -1
  else ((neighborColors G vertex_color v).toFinset.card : ℤ)

/-- The DSATUR vertex selection (coloring.py:92-118): maximize saturation
over the uncolored set, break ties by maximum degree, then let the
`random.choice` oracle pick among the remaining candidates. -/
def dsaturPick (G : GraphInstance) (colors : List (ℕ × ℕ)) (X : Finset ℕ)
    (pick : List ℕ → ℕ) : ℕ :=
  let cands1 := (collectMax (saturation G colors X) (sortedPeriods X)).2
  let cands := if cands1.length > 1 then
      (collectMax (fun v => (getDegree G v : ℤ)) cands1).2
    else cands1
  if cands.length > 1 then pick cands else cands.headD 0

/-- The main DSATUR loop (coloring.py:91-141), fuelled by the number of
uncolored vertices (each iteration removes the picked vertex from `X`). -/
def dsaturGo (G : GraphInstance) (pick : List ℕ → ℕ) :
    ℕ → Finset ℕ → List (ℕ × ℕ) → List (ℕ × ℕ)
  | 0, _, colors => colors
  | f + 1, X, colors =>
    if X = ∅ then colors
    else
      let v := dsaturPick G colors X pick
      dsaturGo G pick f (X.erase v) (assignSmallest G colors v)

/-- Embeds `dsatur_coloring` (coloring.py:64-143). -/
def dsatur_coloring (G : GraphInstance) (pick : List ℕ → ℕ) :
    List (ℕ × ℕ) :=
  dsaturGo G pick G.vertices.card G.vertices []

/-- The RLF vertex selection (coloring.py:170-184): maximize the degree
inside the subgraph induced by `X`, ties broken by the `random.choice`
oracle; `none` when there is no candidate (the `break` case). -/
def rlfSelect (G : GraphInstance) (X : Finset ℕ) (pick : List ℕ → ℕ) :
    Option ℕ :=
  let cands := (collectMax (fun v => ((getNeighbors G v ∩ X).card : ℤ))
    (sortedPeriods X)).2
  if cands.isEmpty then none else some (pick cands)

/-- The inner RLF loop building one color class (coloring.py:168-201):
color the selected vertex, move its X-neighbors to `Y`, and drop it and
them from `X`; fuelled by `|X|`. -/
def rlfInner (G : GraphInstance) (pick : List ℕ → ℕ) (color : ℕ) :
    ℕ → Finset ℕ → Finset ℕ → List (ℕ × ℕ) → Finset ℕ × List (ℕ × ℕ)
  | 0, _, Y, colors => (Y, colors)
  | f + 1, X, Y, colors =>
    if X = ∅ then (Y, colors)
    else
      match rlfSelect G X pick with
      | none => (Y, colors)
      | some v =>
        rlfInner G pick color f
          ((X.erase v) \ (getNeighbors G v ∩ X))
          (Y ∪ (getNeighbors G v ∩ X)) ((v, color) :: colors)

/-- The outer RLF loop over color classes (coloring.py:162-209), fuelled
by the vertex count (each round colors at least one vertex). -/
def rlfOuter (G : GraphInstance) (pick : List ℕ → ℕ) :
    ℕ → Finset ℕ → ℕ → List (ℕ × ℕ) → List (ℕ × ℕ)
  | 0, _, _, colors => colors
  | f + 1, X, color, colors =>
    if X = ∅ then colors
    else
      rlfOuter G pick f (rlfInner G pick color X.card X ∅ colors).1
        (color + 1) (rlfInner G pick color X.card X ∅ colors).2

/-- Embeds `rlf_coloring` (coloring.py:146-211). -/
def rlf_coloring (G : GraphInstance) (pick : List ℕ → ℕ) :
    List (ℕ × ℕ) :=
  rlfOuter G pick G.vertices.card G.vertices 1 []

/-- A coloring (as a lookup dict) is proper: distinct adjacent vertices
that are both colored carry different colors. -/
def properColors (G : GraphInstance) (colors : List (ℕ × ℕ)) : Prop :=
  ∀ u v cu cv, u ≠ v → u ∈ getNeighbors G v →
    List.lookup u colors = some cu → List.lookup v colors = some cv →
      cu ≠ cv

/-- The triangle graph on vertices 1, 2, 3, used as coloring witness. -/
def exK3 : GraphInstance :=
  ⟨{1, 2, 3}, [(1, {2, 3}), (2, {1, 3}), (3, {1, 2})]⟩

-- ===================== THEOREMS =====================

theorem periods_applyRegOp_mono (I : TimetablingInstance) (op : RegOp) :
    I.periods ⊆ (applyRegOp I op).periods := by
  cases op with
  | room n c a =>
    simp only [applyRegOp, add_room]
    exact Finset.subset_union_left
  | teacher n cs a =>
    simp only [applyRegOp, add_teacher]
    exact Finset.subset_union_left

theorem periods_eq_availabilityUnion_step (I : TimetablingInstance)
    (h : I.periods = availabilityUnion I) (op : RegOp) :
    (applyRegOp I op).periods = availabilityUnion (applyRegOp I op) := by
  cases op with
  | room n c a =>
    simp only [applyRegOp, add_room, availabilityUnion] at *
    simp only [List.map_append, List.foldr_append, List.map_cons, List.map_nil,
      List.foldr_cons, List.foldr_nil]
    rw [h]
    have hfold : ∀ (l : List (Finset ℕ)) (s : Finset ℕ),
        l.foldr (· ∪ ·) s = l.foldr (· ∪ ·) ∅ ∪ s := by
      intro l s
      induction l with
      | nil => simp
      | cons x xs ih => rw [List.foldr_cons, List.foldr_cons, ih, Finset.union_assoc]
    rw [hfold _ (a.toFinset ∪ ∅)]
    simp only [Finset.union_empty]
    ac_rfl
  | teacher n cs a =>
    simp only [applyRegOp, add_teacher, availabilityUnion] at *
    simp only [List.map_append, List.foldr_append, List.map_cons, List.map_nil,
      List.foldr_cons, List.foldr_nil]
    rw [h]
    have hfold : ∀ (l : List (Finset ℕ)) (s : Finset ℕ),
        l.foldr (· ∪ ·) s = l.foldr (· ∪ ·) ∅ ∪ s := by
      intro l s
      induction l with
      | nil => simp
      | cons x xs ih => rw [List.foldr_cons, List.foldr_cons, ih, Finset.union_assoc]
    rw [hfold _ (a.toFinset ∪ ∅)]
    simp only [Finset.union_empty]
    ac_rfl

theorem periods_eq_availabilityUnion (I : TimetablingInstance)
    (h : I.periods = availabilityUnion I) (ops : List RegOp) :
    (applyRegOps I ops).periods = availabilityUnion (applyRegOps I ops) := by
  induction ops generalizing I with
  | nil => exact h
  | cons op ops ih =>
    exact ih _ (periods_eq_availabilityUnion_step I h op)

/-- C10: after any sequence of `add_room` and `add_teacher` calls on a fresh
instance, `instance.periods` equals the union of the availability sets of
all registered rooms and teachers, and no registration call ever removes a
period. -/
theorem claim_C10 (ops : List RegOp) :
    (applyRegOps emptyInstance ops).periods =
      availabilityUnion (applyRegOps emptyInstance ops) ∧
    ∀ (I : TimetablingInstance) (op : RegOp),
      I.periods ⊆ (applyRegOp I op).periods := by
  constructor
  · exact periods_eq_availabilityUnion emptyInstance (by decide) ops
  · exact periods_applyRegOp_mono

theorem prefMatchesCode_ok {I : TimetablingInstance} {sec : CourseSection}
    {a : Assignment} {p : Preference} {b : Bool}
    (h : prefMatchesCode I sec a p = Except.ok b) :
    strictPrefMatches I sec a p = b := by
  unfold prefMatchesCode at h
  by_cases hcp : (p.course_name = sec.course_name ∧ p.period = some a.period)
  case pos =>
    rw [if_pos hcp] at h
    cases hr : List.lookup a.room_id I.rooms with
    | none =>
      simp only [hr] at h
      exact Except.noConfusion h
    | some room =>
      simp only [hr] at h
      by_cases hrn : p.room_name = some room.name
      · rw [if_pos hrn] at h
        cases ht : List.lookup a.teacher_id I.teachers with
        | none =>
          simp only [ht] at h
          exact Except.noConfusion h
        | some t =>
          simp only [ht] at h
          injection h with hb
          subst hb
          simp only [strictPrefMatches, hr, ht, Option.map_some]
          rw [decide_eq_decide]
          refine Iff.intro (fun hx => hx.2.2.2.symm) (fun hx => ?_)
          exact ⟨hcp.1, hcp.2, hrn.symm, hx.symm⟩
      · rw [if_neg hrn] at h
        injection h with hb
        subst hb
        simp only [strictPrefMatches, hr, Option.map_some,
          decide_eq_false_iff_not]
        intro hx
        exact hrn hx.2.2.1.symm
  case neg =>
    rw [if_neg hcp] at h
    injection h with hb
    subst hb
    simp only [strictPrefMatches]
    simp only [decide_eq_false_iff_not]
    intro hx
    exact hcp ⟨hx.1, hx.2.1⟩

theorem objFirstMatch_ok {I : TimetablingInstance} {sec : CourseSection}
    {a : Assignment} {v : ℚ} :
    ∀ {ps : List Preference}, objFirstMatch I sec a ps = Except.ok v →
      v = ((ps.find? (fun p => strictPrefMatches I sec a p)).map
            Preference.value).getD 0
  | [], h => by
    simp only [objFirstMatch] at h
    cases h
    simp
  | p :: rest, h => by
    simp only [objFirstMatch] at h
    cases hm : prefMatchesCode I sec a p with
    | error e => rw [hm] at h; cases h
    | ok b =>
      rw [hm] at h
      have hs := prefMatchesCode_ok hm
      cases b with
      | true =>
        cases h
        simp [List.find?, hs]
      | false =>
        simp only [List.find?, hs]
        exact objFirstMatch_ok h

theorem calcObjGo_ok {I : TimetablingInstance} :
    ∀ {l : List (ℕ × Assignment)} {acc q : ℚ},
      calcObjGo I l acc = Except.ok q →
      q = acc + (l.map (fun e =>
        match List.lookup e.1 I.course_sections with
        | none => 0
        | some sec =>
          ((I.preferences.find? (fun p => strictPrefMatches I sec e.2 p)).map
            Preference.value).getD 0)).sum
  | [], acc, q, h => by
    simp only [calcObjGo] at h
    cases h
    simp
  | (sid, a) :: rest, acc, q, h => by
    simp only [calcObjGo] at h
    cases hsec : List.lookup sid I.course_sections with
    | none =>
      simp only [hsec] at h
      have := calcObjGo_ok h
      simpa [hsec, add_assoc] using this
    | some sec =>
      simp only [hsec] at h
      cases hv : objFirstMatch I sec a I.preferences with
      | error e =>
        simp only [hv] at h
        exact Except.noConfusion h
      | ok v =>
        simp only [hv] at h
        have hrec := calcObjGo_ok h
        have hval := objFirstMatch_ok hv
        subst hval
        simp only [List.map_cons, List.sum_cons, hsec] at *
        rw [hrec]
        ring

/-- C1 (amended): whenever `calculate_objective` terminates without a
`KeyError`, it returns the sum, over all assignments whose section exists,
of the value of the first preference in list order whose `course_name`
equals the section's course and whose `period`, `room_name` and
`teacher_name` fields all equal (strictly, with no null-as-wildcard rule:
a null field matches nothing) the assignment's period, room name and
teacher name; each assignment contributes at most one preference value. -/
theorem claim_C1 (I : TimetablingInstance) (q : ℚ)
    (h : calculate_objective I = Except.ok q) : q = strict_objective I := by
  have := @calcObjGo_ok I I.assignments 0 q h
  simpa [strict_objective] using this

/-- C1 counterexample: on `exC1` the preference has `room_name = None`, so
under the claim's null-as-wildcard semantics it matches the single
assignment and the objective would be 10, yet `calculate_objective`
compares `None` against the room's name, finds no match, and returns 0. -/
theorem claim_C1_counterexample :
    calculate_objective exC1 = Except.ok 0 ∧ spec_objective exC1 = 10 := by
  constructor
  · norm_num [calculate_objective, calcObjGo, objFirstMatch, prefMatchesCode,
      exC1, List.lookup]
    rfl
  · norm_num [spec_objective, specPrefMatches, exC1, List.lookup, List.find?]

theorem claim_C1_ce_aux : calculate_objective exC1 = Except.ok 0 := by
  norm_num [calculate_objective, calcObjGo, objFirstMatch, prefMatchesCode,
    exC1, List.lookup]
  rfl

/-- C1 witness: the amended theorem applied to the concrete instance `exC1`. -/
theorem claim_C1_witness :
    calculate_objective exC1 = Except.ok 0 ∧ (0 : ℚ) = strict_objective exC1 :=
  ⟨claim_C1_ce_aux, claim_C1 exC1 0 claim_C1_ce_aux⟩

theorem conflictScan_true {I : TimetablingInstance} {sec : CourseSection}
    {p r t : ℕ} :
    ∀ {A : List (ℕ × Assignment)}, conflictScan I sec p r t A = some true →
      ∀ e ∈ A, e.2.period = p →
        e.2.teacher_id ≠ t ∧ e.2.room_id ≠ r ∧
          ∀ asec, List.lookup e.1 I.course_sections = some asec →
            sec.curriculum_ids ∩ asec.curriculum_ids = ∅
  | [], _, e, he, _ => absurd he (List.not_mem_nil e)
  | (asid, a) :: rest, h, e, he, hep => by
    simp only [conflictScan] at h
    by_cases hp : a.period = p
    · rw [if_pos hp] at h
      by_cases ht : a.teacher_id = t
      · rw [if_pos ht] at h; exact absurd h (by simp)
      · rw [if_neg ht] at h
        by_cases hrm : a.room_id = r
        · rw [if_pos hrm] at h; exact absurd h (by simp)
        · rw [if_neg hrm] at h
          cases hl : List.lookup asid I.course_sections with
          | none => rw [hl] at h; exact absurd h (by simp)
          | some asec =>
            rw [hl] at h
            simp only at h
            by_cases hint : sec.curriculum_ids ∩ asec.curriculum_ids ≠ ∅
            · rw [if_pos hint] at h; exact absurd h (by simp)
            · rw [if_neg hint] at h
              rcases List.mem_cons.mp he with rfl | hmem
              · exact ⟨ht, hrm, fun asec2 hl2 => by
                  rw [hl] at hl2
                  cases hl2
                  exact not_not.mp hint⟩
              · exact conflictScan_true h e hmem hep
    · rw [if_neg hp] at h
      rcases List.mem_cons.mp he with rfl | hmem
      · exact absurd hep hp
      · exact conflictScan_true h e hmem hep

theorem grasp_feasible_spec {I : TimetablingInstance} {s p r t : ℕ}
    {A : List (ℕ × Assignment)}
    (h : grasp_is_candidate_feasible I s p r t A = some true) :
    ∃ sec room teacher,
      List.lookup s I.course_sections = some sec ∧
      List.lookup r I.rooms = some room ∧
      List.lookup t I.teachers = some teacher ∧
      sec.total_students ≤ room.capacity ∧
      p ∈ room.availability ∧ p ∈ teacher.availability ∧
      conflictScan I sec p r t A = some true := by
  unfold grasp_is_candidate_feasible at h
  cases hs : List.lookup s I.course_sections with
  | none => rw [hs] at h; exact absurd h (by simp)
  | some sec =>
    cases hr : List.lookup r I.rooms with
    | none => rw [hs, hr] at h; exact absurd h (by simp)
    | some room =>
      cases ht : List.lookup t I.teachers with
      | none => rw [hs, hr, ht] at h; exact absurd h (by simp)
      | some teacher =>
        rw [hs, hr, ht] at h
        simp only at h
        by_cases hcap : room.capacity < sec.total_students
        · rw [if_pos hcap] at h; exact absurd h (by simp)
        · rw [if_neg hcap] at h
          by_cases hra : p ∉ room.availability
          · rw [if_pos hra] at h; exact absurd h (by simp)
          · rw [if_neg hra] at h
            by_cases hta : p ∉ teacher.availability
            · rw [if_pos hta] at h; exact absurd h (by simp)
            · rw [if_neg hta] at h
              exact ⟨sec, room, teacher, rfl, rfl, rfl, Nat.le_of_not_lt hcap,
                not_not.mp hra, not_not.mp hta, h⟩

theorem ga_feasible_spec {I : TimetablingInstance} {s p r t : ℕ}
    {A : List (ℕ × Assignment)}
    (h : ga_is_candidate_feasible I s p r t A = some true) :
    ∃ sec room teacher,
      List.lookup s I.course_sections = some sec ∧
      List.lookup r I.rooms = some room ∧
      List.lookup t I.teachers = some teacher ∧
      sec.course_name ∈ teacher.course_names ∧
      sec.total_students ≤ room.capacity ∧
      p ∈ room.availability ∧ p ∈ teacher.availability ∧
      conflictScan I sec p r t A = some true := by
  unfold ga_is_candidate_feasible at h
  cases hs : List.lookup s I.course_sections with
  | none => rw [hs] at h; exact absurd h (by simp)
  | some sec =>
    cases hr : List.lookup r I.rooms with
    | none => rw [hs, hr] at h; exact absurd h (by simp)
    | some room =>
      cases ht : List.lookup t I.teachers with
      | none => rw [hs, hr, ht] at h; exact absurd h (by simp)
      | some teacher =>
        rw [hs, hr, ht] at h
        simp only at h
        by_cases hq : sec.course_name ∉ teacher.course_names
        · rw [if_pos hq] at h; exact absurd h (by simp)
        · rw [if_neg hq] at h
          by_cases hcap : room.capacity < sec.total_students
          · rw [if_pos hcap] at h; exact absurd h (by simp)
          · rw [if_neg hcap] at h
            by_cases hra : p ∉ room.availability
            · rw [if_pos hra] at h; exact absurd h (by simp)
            · rw [if_neg hra] at h
              by_cases hta : p ∉ teacher.availability
              · rw [if_pos hta] at h; exact absurd h (by simp)
              · rw [if_neg hta] at h
                exact ⟨sec, room, teacher, rfl, rfl, rfl, not_not.mp hq,
                  Nat.le_of_not_lt hcap, not_not.mp hra, not_not.mp hta, h⟩

theorem extension_invariants {I : TimetablingInstance} {s p r t : ℕ}
    {A : List (ℕ × Assignment)} {sec : CourseSection} {room : Room}
    {teacher : Teacher}
    (hA3 : satI3 I A) (hA4 : satI4 I A) (hA5 : satI5 A) (hA6 : satI6 A)
    (hA7 : satI7 I A)
    (hs : List.lookup s I.course_sections = some sec)
    (hr : List.lookup r I.rooms = some room)
    (ht : List.lookup t I.teachers = some teacher)
    (hcap : sec.total_students ≤ room.capacity)
    (hra : p ∈ room.availability) (hta : p ∈ teacher.availability)
    (hscan : conflictScan I sec p r t A = some true) :
    satI3 I (A ++ [(s, Assignment.mk s p r t)]) ∧
    satI4 I (A ++ [(s, Assignment.mk s p r t)]) ∧
    satI5 (A ++ [(s, Assignment.mk s p r t)]) ∧
    satI6 (A ++ [(s, Assignment.mk s p r t)]) ∧
    satI7 I (A ++ [(s, Assignment.mk s p r t)]) := by
  have hnew := conflictScan_true hscan
  refine ⟨?_, ?_, ?_, ?_, ?_⟩
  · intro e he
    rcases List.mem_append.mp he with hmem | hmem
    · exact hA3 e hmem
    · simp only [List.mem_singleton] at hmem
      subst hmem
      simp only [chkI3, hr, ht]
      simp [hra, hta]
  · intro e he
    rcases List.mem_append.mp he with hmem | hmem
    · exact hA4 e hmem
    · simp only [List.mem_singleton] at hmem
      subst hmem
      simp only [chkI4, hs, hr]
      simp [hcap]
  · refine List.pairwise_append.mpr ⟨hA5, List.pairwise_singleton _ _, ?_⟩
    intro e he e2 he2
    simp only [List.mem_singleton] at he2
    subst he2
    simp only [relI5, decide_eq_true_eq]
    by_cases hp : e.2.period = p
    · exact Or.inr (by simpa using (hnew e he hp).1)
    · exact Or.inl (by simpa using hp)
  · refine List.pairwise_append.mpr ⟨hA6, List.pairwise_singleton _ _, ?_⟩
    intro e he e2 he2
    simp only [List.mem_singleton] at he2
    subst he2
    simp only [relI6, decide_eq_true_eq]
    by_cases hp : e.2.period = p
    · exact Or.inr (by simpa using (hnew e he hp).2.1)
    · exact Or.inl (by simpa using hp)
  · refine List.pairwise_append.mpr ⟨hA7, List.pairwise_singleton _ _, ?_⟩
    intro e he e2 he2
    simp only [List.mem_singleton] at he2
    subst he2
    simp only [relI7]
    by_cases hp : e.2.period = p
    · rw [if_pos hp]
      cases hl : List.lookup e.1 I.course_sections with
      | none => rfl
      | some asec =>
        simp only [hs]
        have := (hnew e he hp).2.2 asec hl
        simp [Finset.inter_comm, this]
    · rw [if_neg hp]

/-- C2 (amended): for a partial assignment set A not containing s that
satisfies the per-assignment constraints I3 and I4 and the pairwise
constraints I5, I6 and I7, a candidate accepted by
`GRASPTimetabling._is_candidate_feasible` extends A to a set that still
satisfies I3-I7, but nothing forces I2: that predicate never checks
teacher qualification. The genetic-algorithm variant
`GeneticAlgorithmTimetabling._is_candidate_feasible` does check I2, and
its accepted candidates preserve I2-I7. -/
theorem claim_C2 (I : TimetablingInstance) (s p r t : ℕ)
    (A : List (ℕ × Assignment))
    (hA2 : satI2 I A) (hA3 : satI3 I A) (hA4 : satI4 I A) (hA5 : satI5 A)
    (hA6 : satI6 A) (hA7 : satI7 I A) (_hni : List.lookup s A = none) :
    (grasp_is_candidate_feasible I s p r t A = some true →
      satI3 I (A ++ [(s, Assignment.mk s p r t)]) ∧
      satI4 I (A ++ [(s, Assignment.mk s p r t)]) ∧
      satI5 (A ++ [(s, Assignment.mk s p r t)]) ∧
      satI6 (A ++ [(s, Assignment.mk s p r t)]) ∧
      satI7 I (A ++ [(s, Assignment.mk s p r t)])) ∧
    (ga_is_candidate_feasible I s p r t A = some true →
      satI2 I (A ++ [(s, Assignment.mk s p r t)]) ∧
      satI3 I (A ++ [(s, Assignment.mk s p r t)]) ∧
      satI4 I (A ++ [(s, Assignment.mk s p r t)]) ∧
      satI5 (A ++ [(s, Assignment.mk s p r t)]) ∧
      satI6 (A ++ [(s, Assignment.mk s p r t)]) ∧
      satI7 I (A ++ [(s, Assignment.mk s p r t)])) := by
  constructor
  · intro h
    obtain ⟨sec, room, teacher, hs, hr, ht, hcap, hra, hta, hscan⟩ :=
      grasp_feasible_spec h
    exact extension_invariants hA3 hA4 hA5 hA6 hA7 hs hr ht hcap hra hta hscan
  · intro h
    obtain ⟨sec, room, teacher, hs, hr, ht, hq, hcap, hra, hta, hscan⟩ :=
      ga_feasible_spec h
    refine ⟨?_, extension_invariants hA3 hA4 hA5 hA6 hA7 hs hr ht hcap hra hta hscan⟩
    intro e he
    rcases List.mem_append.mp he with hmem | hmem
    · exact hA2 e hmem
    · simp only [List.mem_singleton] at hmem
      subst hmem
      simp only [chkI2, hs, ht]
      simp [hq]

/-- C2 counterexample: on `exC2` the teacher is qualified for no course,
`GRASPTimetabling._is_candidate_feasible` nevertheless accepts the
candidate over the empty partial assignment, and the one-element extension
violates I2 (teacher qualified for the section's course), refuting the
claim as stated. -/
theorem claim_C2_counterexample :
    grasp_is_candidate_feasible exC2 1 1 1 1 [] = some true ∧
    ¬ satI2 exC2 [(1, Assignment.mk 1 1 1 1)] := by
  constructor
  · decide
  · intro hsat
    have := hsat (1, Assignment.mk 1 1 1 1) (by simp)
    simp only [chkI2] at this
    revert this
    decide

/-- C2 witness: the amended theorem applied on `exC2w` with one placed
assignment; both feasibility predicates accept the second section's
candidate in the other period and all conclusions evaluate to true. -/
theorem claim_C2_witness :
    grasp_is_candidate_feasible exC2w 2 2 1 1 [(1, Assignment.mk 1 1 1 1)] = some true ∧
    satI5 ([(1, Assignment.mk 1 1 1 1)] ++ [(2, Assignment.mk 2 2 1 1)]) := by
  refine ⟨by decide, ?_⟩
  have := claim_C2 exC2w 2 2 1 1 [(1, Assignment.mk 1 1 1 1)]
    (by decide) (by decide) (by decide) (by decide) (by decide) (by decide)
    (by decide)
  exact (this.1 (by decide)).2.2.1

theorem exists_lookup_of_mem_keys {β : Type} {l : List (ℕ × β)} {k : ℕ}
    (h : k ∈ l.map Prod.fst) : ∃ v, List.lookup k l = some v := by
  induction l with
  | nil => simp at h
  | cons e rest ih =>
    obtain ⟨a1, b1⟩ := e
    by_cases hk : k = a1
    · exact ⟨b1, by simp [List.lookup, hk]⟩
    · simp only [List.map_cons, List.mem_cons] at h
      rcases h with h | h
      · exact absurd h hk
      · obtain ⟨v, hv⟩ := ih h
        have hbeq : (k == a1) = false := beq_eq_false_iff_ne.mpr hk
        exact ⟨v, by simp [List.lookup, hbeq, hv]⟩

theorem mem_of_lookup_eq_some {β : Type} {l : List (ℕ × β)} {k : ℕ} {v : β}
    (h : List.lookup k l = some v) : (k, v) ∈ l := by
  induction l with
  | nil => simp [List.lookup] at h
  | cons e rest ih =>
    obtain ⟨a1, b1⟩ := e
    by_cases hk : k = a1
    · subst hk
      simp only [List.lookup, beq_self_eq_true] at h
      cases h
      exact List.mem_cons_self _ _
    · have hbeq : (k == a1) = false := beq_eq_false_iff_ne.mpr hk
      simp only [List.lookup, hbeq] at h
      exact List.mem_cons_of_mem _ (ih h)

theorem repairPassGo_noop (I : TimetablingInstance)
    (feas : ℕ → ℕ → ℕ → ℕ → List (ℕ × Assignment) → Option Bool)
    (shuffle : ℕ → List ℕ → List ℕ) (A : List (ℕ × Assignment)) (cnt : ℕ)
    (H : ∀ e ∈ A, feas e.1 e.2.period e.2.room_id e.2.teacher_id
      (A.filter (fun x => ¬ x.1 = e.1)) = some true) :
    ∀ sids : List ℕ, (∀ sid ∈ sids, sid ∈ A.map Prod.fst) →
      repairPassGo I feas shuffle sids A false cnt = some (A, false, cnt)
  | [], _ => rfl
  | sid :: rest, hmem => by
    obtain ⟨a, ha⟩ := exists_lookup_of_mem_keys (hmem sid (by simp))
    have hfeas := H (sid, a) (mem_of_lookup_eq_some ha)
    simp only [repairPassGo, ha, hfeas]
    exact repairPassGo_noop I feas shuffle A cnt H rest
      (fun x hx => hmem x (List.mem_cons_of_mem _ hx))

/-- C9: the repair routine of grasp.py:443-475 and experimental.py:560-592
is a no-op on already-feasible input: if every assignment satisfies the
candidate-feasibility predicate against the others, the first full scan
changes nothing, the `while changed` loop exits, and the returned
assignments equal the input. The statement quantifies over the feasibility
predicate, covering both the GRASP instantiation
(`grasp_is_candidate_feasible I`) and the genetic-algorithm instantiation
(`ga_is_candidate_feasible I`), and over every shuffle draw and fuel. -/
theorem claim_C9 (I : TimetablingInstance)
    (feas : ℕ → ℕ → ℕ → ℕ → List (ℕ × Assignment) → Option Bool)
    (shuffle : ℕ → List ℕ → List ℕ) (fuel cnt : ℕ)
    (A : List (ℕ × Assignment))
    (H : ∀ e ∈ A, feas e.1 e.2.period e.2.room_id e.2.teacher_id
      (A.filter (fun x => ¬ x.1 = e.1)) = some true) :
    repairLoop I feas shuffle (fuel + 1) A cnt = some A := by
  have hpass := repairPassGo_noop I feas shuffle A cnt H (A.map Prod.fst)
    (fun x hx => hx)
  simp only [repairLoop, hpass]
  rfl

/-- C9 witness: the repair theorem applied to a two-assignment feasible set
on `exC2w` with the GRASP feasibility predicate and the identity shuffle. -/
theorem claim_C9_witness :
    repairLoop exC2w (grasp_is_candidate_feasible exC2w) (fun _ l => l) 1
      [(1, Assignment.mk 1 1 1 1), (2, Assignment.mk 2 2 1 1)] 0 =
      some [(1, Assignment.mk 1 1 1 1), (2, Assignment.mk 2 2 1 1)] :=
  claim_C9 exC2w (grasp_is_candidate_feasible exC2w) (fun _ l => l) 0 0
    [(1, Assignment.mk 1 1 1 1), (2, Assignment.mk 2 2 1 1)] (by decide)

theorem conflictScan_ne_none {I : TimetablingInstance} {sec : CourseSection}
    {p r t : ℕ} :
    ∀ {A : List (ℕ × Assignment)},
      (∀ e ∈ A, (List.lookup e.1 I.course_sections).isSome) →
      ∃ b, conflictScan I sec p r t A = some b
  | [], _ => ⟨true, rfl⟩
  | (asid, a) :: rest, hA => by
    simp only [conflictScan]
    by_cases hp : a.period = p
    · rw [if_pos hp]
      by_cases ht : a.teacher_id = t
      · rw [if_pos ht]; exact ⟨false, rfl⟩
      · rw [if_neg ht]
        by_cases hrm : a.room_id = r
        · rw [if_pos hrm]; exact ⟨false, rfl⟩
        · rw [if_neg hrm]
          obtain ⟨asec, hasec⟩ := Option.isSome_iff_exists.mp
            (hA (asid, a) (by simp))
          rw [hasec]
          simp only
          by_cases hint : sec.curriculum_ids ∩ asec.curriculum_ids ≠ ∅
          · rw [if_pos hint]; exact ⟨false, rfl⟩
          · rw [if_neg hint]
            exact conflictScan_ne_none
              (fun e he => hA e (List.mem_cons_of_mem _ he))
    · rw [if_neg hp]
      exact conflictScan_ne_none (fun e he => hA e (List.mem_cons_of_mem _ he))

theorem grasp_feasible_ne_none {I : TimetablingInstance} {s p r t : ℕ}
    {A : List (ℕ × Assignment)}
    (hs : (List.lookup s I.course_sections).isSome)
    (hr : (List.lookup r I.rooms).isSome)
    (ht : (List.lookup t I.teachers).isSome)
    (hA : ∀ e ∈ A, (List.lookup e.1 I.course_sections).isSome) :
    ∃ b, grasp_is_candidate_feasible I s p r t A = some b := by
  obtain ⟨sec, hsec⟩ := Option.isSome_iff_exists.mp hs
  obtain ⟨room, hroom⟩ := Option.isSome_iff_exists.mp hr
  obtain ⟨teach, hteach⟩ := Option.isSome_iff_exists.mp ht
  unfold grasp_is_candidate_feasible
  rw [hsec, hroom, hteach]
  simp only
  by_cases h1 : room.capacity < sec.total_students
  · rw [if_pos h1]; exact ⟨false, rfl⟩
  · rw [if_neg h1]
    by_cases h2 : p ∉ room.availability
    · rw [if_pos h2]; exact ⟨false, rfl⟩
    · rw [if_neg h2]
      by_cases h3 : p ∉ teach.availability
      · rw [if_pos h3]; exact ⟨false, rfl⟩
      · rw [if_neg h3]
        exact conflictScan_ne_none hA

theorem evaluate_candidate_attr {I : TimetablingInstance} {s p r t : ℕ}
    {sec : CourseSection} {room : Room}
    (hpp : I.preferred_periods = none)
    (hs : List.lookup s I.course_sections = some sec)
    (hr : List.lookup r I.rooms = some room) :
    evaluate_candidate I s p r t = Except.error PyError.attributeError := by
  unfold evaluate_candidate
  rw [hs, hr, hpp]

theorem qualifiedTeachers_sub {I : TimetablingInstance} {sec : CourseSection}
    {t : ℕ} (h : t ∈ qualifiedTeachers I sec) : t ∈ I.teachers.map Prod.fst := by
  simp only [qualifiedTeachers, List.mem_map] at h
  obtain ⟨e, he, rfl⟩ := h
  exact List.mem_map_of_mem Prod.fst (List.mem_of_mem_filter he)

theorem mem_graspTriples_parts {I : TimetablingInstance} {sec : CourseSection}
    {p r t : ℕ} (h : (p, r, t) ∈ graspTriples I sec) :
    r ∈ I.rooms.map Prod.fst ∧ t ∈ I.teachers.map Prod.fst := by
  rcases List.mem_flatMap.mp h with ⟨p2, hp2, h2⟩
  rcases List.mem_flatMap.mp h2 with ⟨r2, hr2, h3⟩
  rcases List.mem_map.mp h3 with ⟨t2, ht2, heq⟩
  simp only [Prod.mk.injEq] at heq
  obtain ⟨rfl, rfl, rfl⟩ := heq
  exact ⟨hr2, qualifiedTeachers_sub ht2⟩

theorem mem_sortedPeriods {s : Finset ℕ} {p : ℕ} :
    p ∈ sortedPeriods s ↔ p ∈ s := by
  unfold sortedPeriods
  simp only [List.mem_filter, List.mem_range, decide_eq_true_eq]
  constructor
  · exact fun h => h.2
  · intro h
    exact ⟨Nat.lt_succ_of_le (@Finset.le_sup ℕ ℕ _ _ s id p h), h⟩

theorem mem_graspTriples_intro {I : TimetablingInstance} {sec : CourseSection}
    {p r t : ℕ} (hp : p ∈ I.periods) (hr : r ∈ I.rooms.map Prod.fst)
    (ht : t ∈ qualifiedTeachers I sec) : (p, r, t) ∈ graspTriples I sec :=
  List.mem_flatMap.mpr ⟨p, mem_sortedPeriods.mpr hp,
    List.mem_flatMap.mpr ⟨r, hr, List.mem_map.mpr ⟨t, ht, rfl⟩⟩⟩

theorem genCandGo_attr {I : TimetablingInstance} {s : ℕ} {sec : CourseSection}
    {A : List (ℕ × Assignment)}
    (hpp : I.preferred_periods = none)
    (hs : List.lookup s I.course_sections = some sec)
    (hA : ∀ e ∈ A, (List.lookup e.1 I.course_sections).isSome) :
    ∀ l : List (ℕ × ℕ × ℕ),
      (∀ trip ∈ l, trip.2.1 ∈ I.rooms.map Prod.fst ∧
        trip.2.2 ∈ I.teachers.map Prod.fst) →
      (∃ trip ∈ l,
        grasp_is_candidate_feasible I s trip.1 trip.2.1 trip.2.2 A = some true) →
      genCandGo I s A l = Except.error PyError.attributeError
  | [], _, hex => by simp at hex
  | (p, r, t) :: rest, hl, hex => by
    obtain ⟨hrm, htm⟩ := hl (p, r, t) (by simp)
    obtain ⟨room, hroom⟩ := exists_lookup_of_mem_keys hrm
    obtain ⟨teach, hteach⟩ := exists_lookup_of_mem_keys htm
    obtain ⟨b, hb⟩ := @grasp_feasible_ne_none I s p r t A
      (by rw [hs]; rfl) (by rw [hroom]; rfl) (by rw [hteach]; rfl) hA
    cases b with
    | true =>
      have hev := @evaluate_candidate_attr I s p r t sec room hpp hs hroom
      simp only [genCandGo, hb, hev]
    | false =>
      simp only [genCandGo, hb]
      apply genCandGo_attr hpp hs hA rest
        (fun trip htr => hl trip (List.mem_cons_of_mem _ htr))
      rcases hex with ⟨trip, htr, htrue⟩
      rcases List.mem_cons.mp htr with rfl | hmem
      · rw [hb] at htrue; exact absurd htrue (by simp)
      · exact ⟨trip, hmem, htrue⟩

/-- C4: on a plain `TimetablingInstance` the attribute `preferred_periods`
is absent (`__init__` never assigns it). Whenever a section has at least
one feasible candidate triple, GRASP's construction
(`_generate_candidates`, which calls `_evaluate_candidate` and reads the
attribute at grasp.py:194) raises `AttributeError`; likewise the genetic
algorithm's local search, in its conflict-free branch
(experimental.py:639), raises `AttributeError` on its first assignment
whose section exists. -/
theorem claim_C4 (I : TimetablingInstance) (s : ℕ)
    (A B : List (ℕ × Assignment)) (sec sec2 : CourseSection)
    (e : ℕ × Assignment) (rest : List (ℕ × Assignment))
    (hpp : I.preferred_periods = none)
    (hs : List.lookup s I.course_sections = some sec)
    (hA : ∀ x ∈ A, (List.lookup x.1 I.course_sections).isSome)
    (hex : ∃ p r t, p ∈ I.periods ∧ r ∈ I.rooms.map Prod.fst ∧
      t ∈ qualifiedTeachers I sec ∧
      grasp_is_candidate_feasible I s p r t A = some true)
    (hB : B = e :: rest)
    (hBs : List.lookup e.1 I.course_sections = some sec2) :
    generate_candidates I s A = Except.error PyError.attributeError ∧
    ga_preferred_scan I B = Except.error PyError.attributeError := by
  constructor
  · unfold generate_candidates
    rw [hs]
    obtain ⟨p, r, t, hp, hr, ht, htrue⟩ := hex
    exact genCandGo_attr hpp hs hA (graspTriples I sec)
      (fun trip htr => mem_graspTriples_parts htr)
      ⟨(p, r, t), mem_graspTriples_intro hp hr ht, htrue⟩
  · subst hB
    obtain ⟨sid, a⟩ := e
    simp only [ga_preferred_scan, hBs, hpp]

/-- C4 witness: on `exC2w` (a plain instance, `preferred_periods` absent)
section 1 has the feasible triple (1, 1, 1), and both the GRASP candidate
generation and the genetic algorithm's conflict-free scan raise
`AttributeError`. -/
theorem claim_C4_witness :
    generate_candidates exC2w 1 [] = Except.error PyError.attributeError ∧
    ga_preferred_scan exC2w [(1, Assignment.mk 1 1 1 1)] =
      Except.error PyError.attributeError :=
  claim_C4 exC2w 1 [] [(1, Assignment.mk 1 1 1 1)] ⟨1, "A", 0, [(1, 10)]⟩
    ⟨1, "A", 0, [(1, 10)]⟩ (1, Assignment.mk 1 1 1 1) [] rfl (by decide)
    (by simp) ⟨1, 1, 1, by decide, by decide, by decide, by decide⟩ rfl (by decide)

theorem peelF_spec {m : ℕ} :
    ∀ {f s n r : ℕ}, peelF m f s = some (n, r) → n * m + r = s ∧ r ≤ m
  | 0, s, n, r, h => by
    simp only [peelF] at h
    by_cases hs : m < s
    · rw [if_pos hs] at h; exact absurd h (by simp)
    · rw [if_neg hs] at h
      cases h
      exact ⟨by simp, Nat.le_of_not_lt hs⟩
  | f + 1, s, n, r, h => by
    simp only [peelF] at h
    by_cases hs : m < s
    · rw [if_pos hs] at h
      cases hrec : peelF m f (s - m) with
      | none => rw [hrec] at h; exact absurd h (by simp)
      | some p =>
        obtain ⟨n0, r0⟩ := p
        rw [hrec] at h
        cases h
        obtain ⟨hsum, hr⟩ := peelF_spec hrec
        refine ⟨?_, hr⟩
        have hms : m ≤ s := Nat.le_of_lt hs
        have hmul : (n0 + 1) * m = n0 * m + m := by ring
        omega
    · rw [if_neg hs] at h
      cases h
      exact ⟨by simp, Nat.le_of_not_lt hs⟩

theorem sectionSum_replicate (n m cid : ℕ) :
    ((List.replicate n ([(cid, m)] : List (ℕ × ℕ))).map sectionSum).sum = n * m := by
  induction n with
  | zero => simp
  | succ k ih =>
    simp only [List.replicate_succ, List.map_cons, List.sum_cons, ih]
    simp [sectionSum]
    ring

theorem peelAll_spec {m : ℕ} :
    ∀ {l : List (ℕ × ℕ)} {secs : List (List (ℕ × ℕ))} {updated : List (ℕ × ℕ)},
      peelAll m l = some (secs, updated) →
      (∀ sec ∈ secs, sectionSum sec ≤ m) ∧
      ((secs.map sectionSum).sum + sectionSum updated = sectionSum l) ∧
      (∀ e ∈ updated, e.2 ≤ m)
  | [], secs, updated, h => by
    simp only [peelAll] at h
    cases h
    exact ⟨by simp, by simp, by simp⟩
  | (cid, students) :: rest, secs, updated, h => by
    simp only [peelAll] at h
    cases hp : peelF m students students with
    | none => rw [hp] at h; exact absurd h (by simp)
    | some p =>
      obtain ⟨n, r⟩ := p
      rw [hp] at h
      cases hrec : peelAll m rest with
      | none => rw [hrec] at h; exact absurd h (by simp)
      | some q =>
        obtain ⟨secs0, updated0⟩ := q
        rw [hrec] at h
        cases h
        obtain ⟨hpeel, hrle⟩ := peelF_spec hp
        obtain ⟨hb, hsum, hup⟩ := peelAll_spec hrec
        refine ⟨?_, ?_, ?_⟩
        · intro sec hsec
          rcases List.mem_append.mp hsec with hm | hm
          · rw [List.eq_of_mem_replicate hm]
            simp [sectionSum]
          · exact hb sec hm
        · simp only [List.map_append, List.sum_append, sectionSum_replicate]
          simp only [sectionSum, List.map_cons, List.sum_cons] at *
          omega
        · intro e he
          rcases List.mem_cons.mp he with rfl | hm
          · exact hrle
          · exact hup e hm

theorem sectionSum_filter_pos (l : List (ℕ × ℕ)) :
    sectionSum (l.filter (fun e => 0 < e.2)) = sectionSum l := by
  induction l with
  | nil => rfl
  | cons e rest ih =>
    by_cases he : 0 < e.2
    · simp [List.filter_cons, he, sectionSum, List.map_cons, List.sum_cons] at *
      omega
    · have he0 : e.2 = 0 := Nat.eq_zero_of_not_pos he
      simp [List.filter_cons, he, sectionSum, List.map_cons, List.sum_cons,
        he0] at *
      omega

theorem insertDesc_perm (x : ℕ × ℕ) :
    ∀ l : List (ℕ × ℕ), (insertDesc x l).Perm (x :: l)
  | [] => List.Perm.refl _
  | y :: ys => by
    simp only [insertDesc]
    by_cases hy : y.2 ≤ x.2
    · rw [if_pos hy]
    · rw [if_neg hy]
      exact ((insertDesc_perm x ys).cons y).trans (List.Perm.swap x y ys)

theorem sortDesc_perm : ∀ l : List (ℕ × ℕ), (sortDesc l).Perm l
  | [] => List.Perm.refl _
  | x :: xs => (insertDesc_perm x (sortDesc xs)).trans ((sortDesc_perm xs).cons x)

theorem sectionSum_sortDesc (l : List (ℕ × ℕ)) :
    sectionSum (sortDesc l) = sectionSum l :=
  List.Perm.sum_eq ((sortDesc_perm l).map Prod.snd)

theorem greedyPack_spec {m : ℕ} :
    ∀ {input current : List (ℕ × ℕ)} {total : ℕ}
      {out : List (List (ℕ × ℕ))},
      sectionSum current = total → total ≤ m →
      greedyPack m input current total = some out →
      (∀ sec ∈ out, sectionSum sec ≤ m) ∧
      (out.map sectionSum).sum = sectionSum input + total
  | [], current, total, out, hcur, htot, h => by
    simp only [greedyPack] at h
    cases h
    by_cases hemp : current.isEmpty
    · have : current = [] := List.isEmpty_iff.mp hemp
      subst this
      simp only [sectionSum, List.map_nil, List.sum_nil] at hcur
      simp [hemp, sectionSum, ← hcur]
    · simp only [if_neg hemp]
      refine ⟨?_, ?_⟩
      · intro sec hsec
        rw [List.mem_singleton] at hsec
        rw [hsec, hcur]
        exact htot
      · have hcur2 := hcur
        simp only [sectionSum] at hcur2
        simp [sectionSum, hcur2]
  | (cid, students) :: rest, current, total, out, hcur, htot, h => by
    simp only [greedyPack] at h
    by_cases h1 : total + students ≤ m
    · rw [if_pos h1] at h
      have hcur2 : sectionSum (current ++ [(cid, students)]) = total + students := by
        simp [sectionSum, hcur]
        simp [sectionSum] at hcur
        omega
      obtain ⟨hb, hsum⟩ := greedyPack_spec hcur2 h1 h
      refine ⟨hb, ?_⟩
      rw [hsum]
      simp [sectionSum]
      omega
    · rw [if_neg h1] at h
      have hheadb : ∀ sec ∈ (if current.isEmpty then
          ([] : List (List (ℕ × ℕ))) else [current]), sectionSum sec ≤ m := by
        intro sec hsec
        by_cases hemp : current.isEmpty
        · simp [hemp] at hsec
        · simp [hemp] at hsec
          rw [hsec, hcur]; exact htot
      have hheads : ((if current.isEmpty then
          ([] : List (List (ℕ × ℕ))) else [current]).map sectionSum).sum = total := by
        by_cases hemp : current.isEmpty
        · have : current = [] := List.isEmpty_iff.mp hemp
          subst this
          simp only [sectionSum, List.map_nil, List.sum_nil] at hcur
          simp [hemp, ← hcur]
        · simp [hemp, hcur]
      by_cases h2 : students ≤ m
      · rw [if_pos h2] at h
        cases hrec : greedyPack m rest [(cid, students)] students with
        | none => rw [hrec] at h; exact absurd h (by simp)
        | some secs =>
          rw [hrec] at h
          cases h
          obtain ⟨hb, hsum⟩ := greedyPack_spec (by simp [sectionSum]) h2 hrec
          refine ⟨?_, ?_⟩
          · intro sec hsec
            rcases List.mem_append.mp hsec with hm | hm
            · exact hheadb sec hm
            · exact hb sec hm
          · simp only [List.map_append, List.sum_append, hheads, hsum]
            simp [sectionSum]
            omega
      · rw [if_neg h2] at h
        cases hp : peelF m students students with
        | none => rw [hp] at h; exact absurd h (by simp)
        | some p =>
          obtain ⟨n, r⟩ := p
          simp only [hp] at h
          obtain ⟨hpeel, hrle⟩ := peelF_spec hp
          by_cases hr : 0 < r
          · rw [if_pos hr] at h
            cases hrec : greedyPack m rest [(cid, r)] r with
            | none => rw [hrec] at h; exact absurd h (by simp)
            | some secs =>
              rw [hrec] at h
              cases h
              obtain ⟨hb, hsum⟩ := greedyPack_spec (by simp [sectionSum]) hrle hrec
              refine ⟨?_, ?_⟩
              · intro sec hsec
                simp only [List.mem_append] at hsec
                rcases hsec with (hm | hm) | hm
                · exact hheadb sec hm
                · rw [List.eq_of_mem_replicate hm]
                  simp [sectionSum]
                · exact hb sec hm
              · simp only [List.map_append, List.sum_append, hheads, hsum,
                  sectionSum_replicate]
                simp [sectionSum]
                omega
          · rw [if_neg hr] at h
            cases hrec : greedyPack m rest [] 0 with
            | none => rw [hrec] at h; exact absurd h (by simp)
            | some secs =>
              rw [hrec] at h
              cases h
              obtain ⟨hb, hsum⟩ := greedyPack_spec (by simp [sectionSum])
                (Nat.zero_le m) hrec
              have hr0 : r = 0 := Nat.eq_zero_of_not_pos hr
              refine ⟨?_, ?_⟩
              · intro sec hsec
                simp only [List.mem_append] at hsec
                rcases hsec with (hm | hm) | hm
                · exact hheadb sec hm
                · rw [List.eq_of_mem_replicate hm]
                  simp [sectionSum]
                · exact hb sec hm
              · simp only [List.map_append, List.sum_append, hheads, hsum,
                  sectionSum_replicate]
                simp [sectionSum]
                omega

theorem split_course_spec {m : ℕ} {l : List (ℕ × ℕ)}
    {out : List (List (ℕ × ℕ))}
    (h : split_course_into_sections m l = some out) :
    (∀ sec ∈ out, sectionSum sec ≤ m) ∧
    (out.map sectionSum).sum = sectionSum l := by
  unfold split_course_into_sections at h
  cases hp : peelAll m l with
  | none => rw [hp] at h; exact absurd h (by simp)
  | some q =>
    obtain ⟨secs, updated⟩ := q
    rw [hp] at h
    simp only at h
    obtain ⟨hb, hsum, _⟩ := peelAll_spec hp
    by_cases hemp : (updated.filter (fun e => 0 < e.2)).isEmpty
    · rw [if_pos hemp] at h
      cases h
      have hzero : sectionSum updated = 0 := by
        have := sectionSum_filter_pos updated
        rw [List.isEmpty_iff.mp hemp] at this
        simpa [sectionSum] using this.symm
      exact ⟨hb, by omega⟩
    · rw [if_neg hemp] at h
      cases hg : greedyPack m (sortDesc (updated.filter (fun e => 0 < e.2))) [] 0 with
      | none => rw [hg] at h; exact absurd h (by simp)
      | some packed =>
        rw [hg] at h
        cases h
        obtain ⟨hbp, hsump⟩ := greedyPack_spec (by simp [sectionSum])
          (Nat.zero_le m) hg
        rw [sectionSum_sortDesc, sectionSum_filter_pos] at hsump
        refine ⟨?_, ?_⟩
        · intro sec hsec
          rcases List.mem_append.mp hsec with hm | hm
          · exact hb sec hm
          · exact hbp sec hm
        · simp only [List.map_append, List.sum_append, hsump]
          omega

theorem total_students_mk (i : ℕ) (n : String) (si : ℕ) (cs : List (ℕ × ℕ)) :
    (CourseSection.mk i n si cs).total_students = sectionSum cs := rfl

theorem courseCurriculumStudents_sum (I : TimetablingInstance) :
    ∀ cids : List ℕ,
      sectionSum (courseCurriculumStudents I cids) =
        (cids.filterMap (fun cid =>
          (List.lookup cid I.curriculums).map Curriculum.num_students)).sum
  | [] => rfl
  | cid :: rest => by
    simp only [courseCurriculumStudents, List.filterMap_cons]
    cases hl : List.lookup cid I.curriculums with
    | none =>
      simpa [courseCurriculumStudents] using courseCurriculumStudents_sum I rest
    | some cur =>
      simp only [Option.map_some, sectionSum, List.map_cons, List.sum_cons]
      have := courseCurriculumStudents_sum I rest
      simp only [sectionSum] at this
      simp [courseCurriculumStudents] at this ⊢
      omega

theorem filter_name_nil {cname : String} :
    ∀ {secs2 : List CourseSection},
      (∀ sec ∈ secs2, ¬ sec.course_name = cname) →
      secs2.filter (fun sec => sec.course_name == cname) = []
  | [], _ => rfl
  | sec :: rest, h => by
    have hne : (sec.course_name == cname) = false :=
      beq_eq_false_iff_ne.mpr (h sec (by simp))
    simp only [List.filter_cons, hne]
    exact filter_name_nil (fun x hx => h x (List.mem_cons_of_mem _ hx))

theorem filter_name_all {cname : String} :
    ∀ {secs2 : List CourseSection},
      (∀ sec ∈ secs2, sec.course_name = cname) →
      secs2.filter (fun sec => sec.course_name == cname) = secs2
  | [], _ => rfl
  | sec :: rest, h => by
    have heq : (sec.course_name == cname) = true :=
      beq_iff_eq.mpr (h sec (by simp))
    simp only [List.filter_cons, heq]
    rw [filter_name_all (fun x hx => h x (List.mem_cons_of_mem _ hx))]
    simp

theorem createGo_mem {I : TimetablingInstance} {m : ℕ} :
    ∀ {infos : List (String × List ℕ)} {nextId : ℕ} {out : List CourseSection},
      createGo I m infos nextId = some out →
      ∀ sec ∈ out, sec.course_name ∈ infos.map Prod.fst ∧
        sec.total_students ≤ m
  | [], nextId, out, h => by
    simp only [createGo] at h
    cases h
    intro sec hsec
    simp at hsec
  | (cname, cids) :: rest, nextId, out, h => by
    simp only [createGo] at h
    by_cases hemp : cids.isEmpty
    · rw [if_pos hemp] at h
      intro sec hsec
      obtain ⟨h1, h2⟩ := createGo_mem h sec hsec
      exact ⟨List.mem_cons_of_mem _ h1, h2⟩
    · rw [if_neg hemp] at h
      by_cases h0 : sectionSum (courseCurriculumStudents I cids) = 0
      · rw [if_pos h0] at h
        intro sec hsec
        obtain ⟨h1, h2⟩ := createGo_mem h sec hsec
        exact ⟨List.mem_cons_of_mem _ h1, h2⟩
      · rw [if_neg h0] at h
        by_cases hle : sectionSum (courseCurriculumStudents I cids) ≤ m
        · rw [if_pos hle] at h
          cases hrec : createGo I m rest (nextId + 1) with
          | none => rw [hrec] at h; exact absurd h (by simp)
          | some secs =>
            rw [hrec] at h
            cases h
            intro sec hsec
            rcases List.mem_cons.mp hsec with rfl | hm
            · exact ⟨by simp, by rw [total_students_mk]; exact hle⟩
            · obtain ⟨h1, h2⟩ := createGo_mem hrec sec hm
              exact ⟨List.mem_cons_of_mem _ h1, h2⟩
        · rw [if_neg hle] at h
          cases hsp : split_course_into_sections m (courseCurriculumStudents I cids) with
          | none => rw [hsp] at h; exact absurd h (by simp)
          | some contents =>
            simp only [hsp] at h
            cases hrec : createGo I m rest (nextId + contents.length) with
            | none => rw [hrec] at h; exact absurd h (by simp)
            | some secs =>
              rw [hrec] at h
              cases h
              intro sec hsec
              rcases List.mem_append.mp hsec with hm | hm
              · obtain ⟨x, hx, rfl⟩ := List.mem_map.mp hm
                refine ⟨by simp, ?_⟩
                rw [total_students_mk]
                refine (split_course_spec hsp).1 x.2 ?_
                have := List.mem_map_of_mem Prod.snd hx
                rwa [List.enum_map_snd] at this
              · obtain ⟨h1, h2⟩ := createGo_mem hrec sec hm
                exact ⟨List.mem_cons_of_mem _ h1, h2⟩

theorem createGo_sums {I : TimetablingInstance} {m : ℕ} :
    ∀ {infos : List (String × List ℕ)} {nextId : ℕ} {out : List CourseSection},
      createGo I m infos nextId = some out →
      (infos.map Prod.fst).Nodup →
      ∀ cinfo ∈ infos,
        ((out.filter (fun sec => sec.course_name == cinfo.1)).map
          CourseSection.total_students).sum =
          sectionSum (courseCurriculumStudents I cinfo.2)
  | [], nextId, out, h, _, cinfo, hmem => absurd hmem (List.not_mem_nil cinfo)
  | (cname, cids) :: rest, nextId, out, h, hnodup, cinfo, hmem => by
    simp only [List.map_cons, List.nodup_cons] at hnodup
    obtain ⟨hnotin, hnodup2⟩ := hnodup
    simp only [createGo] at h
    by_cases hemp : cids.isEmpty
    · rw [if_pos hemp] at h
      rcases List.mem_cons.mp hmem with rfl | hm
      · have hnil : (out.filter (fun sec => sec.course_name == cname)) = [] := by
          refine filter_name_nil (fun sec hsec heq => ?_)
          have := (createGo_mem h sec hsec).1
          rw [heq] at this
          exact hnotin this
        rw [hnil]
        have : cids = [] := List.isEmpty_iff.mp hemp
        subst this
        rfl
      · exact createGo_sums h hnodup2 cinfo hm
    · rw [if_neg hemp] at h
      by_cases h0 : sectionSum (courseCurriculumStudents I cids) = 0
      · rw [if_pos h0] at h
        rcases List.mem_cons.mp hmem with rfl | hm
        · have hnil : (out.filter (fun sec => sec.course_name == cname)) = [] := by
            refine filter_name_nil (fun sec hsec heq => ?_)
            have := (createGo_mem h sec hsec).1
            rw [heq] at this
            exact hnotin this
          rw [hnil, h0]
          rfl
        · exact createGo_sums h hnodup2 cinfo hm
      · rw [if_neg h0] at h
        by_cases hle : sectionSum (courseCurriculumStudents I cids) ≤ m
        · rw [if_pos hle] at h
          cases hrec : createGo I m rest (nextId + 1) with
          | none => rw [hrec] at h; exact absurd h (by simp)
          | some secs =>
            rw [hrec] at h
            cases h
            rcases List.mem_cons.mp hmem with rfl | hm
            · have hnil : (secs.filter (fun sec => sec.course_name == cname)) = [] := by
                refine filter_name_nil (fun sec hsec heq => ?_)
                have := (createGo_mem hrec sec hsec).1
                rw [heq] at this
                exact hnotin this
              simp only [List.filter_cons, beq_self_eq_true, hnil]
              simp [total_students_mk]
            · have hne : cinfo.1 ≠ cname := by
                intro heq
                apply hnotin
                rw [← heq]
                exact List.mem_map_of_mem Prod.fst hm
              have hbeq : (cname == cinfo.1) = false :=
                beq_eq_false_iff_ne.mpr (fun hx => hne hx.symm)
              simp only [List.filter_cons, hbeq]
              exact createGo_sums hrec hnodup2 cinfo hm
        · rw [if_neg hle] at h
          cases hsp : split_course_into_sections m (courseCurriculumStudents I cids) with
          | none => rw [hsp] at h; exact absurd h (by simp)
          | some contents =>
            simp only [hsp] at h
            cases hrec : createGo I m rest (nextId + contents.length) with
            | none => rw [hrec] at h; exact absurd h (by simp)
            | some secs =>
              rw [hrec] at h
              cases h
              have hblocknames : ∀ sec ∈ (contents.enum.map (fun x =>
                  CourseSection.mk (nextId + x.1) cname (x.1 + 1) x.2)),
                  sec.course_name = cname := by
                intro sec hsec
                obtain ⟨x, _, rfl⟩ := List.mem_map.mp hsec
                rfl
              rcases List.mem_cons.mp hmem with rfl | hm
              · have hnil : (secs.filter (fun sec => sec.course_name == cname)) = [] := by
                  refine filter_name_nil (fun sec hsec heq => ?_)
                  have := (createGo_mem hrec sec hsec).1
                  rw [heq] at this
                  exact hnotin this
                rw [List.filter_append, hnil, List.append_nil,
                  filter_name_all hblocknames]
                have hmaps : ((contents.enum.map (fun x =>
                    CourseSection.mk (nextId + x.1) cname (x.1 + 1) x.2)).map
                    CourseSection.total_students) = contents.map sectionSum := by
                  rw [List.map_map]
                  have : (CourseSection.total_students ∘ fun x : ℕ × List (ℕ × ℕ) =>
                      CourseSection.mk (nextId + x.1) cname (x.1 + 1) x.2) =
                      (sectionSum ∘ Prod.snd) := rfl
                  rw [this, ← List.map_map, List.enum_map_snd]
                rw [hmaps]
                exact (split_course_spec hsp).2
              · have hne : cinfo.1 ≠ cname := by
                  intro heq
                  apply hnotin
                  rw [← heq]
                  exact List.mem_map_of_mem Prod.fst hm
                have hnilb : ((contents.enum.map (fun x =>
                    CourseSection.mk (nextId + x.1) cname (x.1 + 1) x.2)).filter
                    (fun sec => sec.course_name == cinfo.1)) = [] := by
                  refine filter_name_nil (fun sec hsec heq => ?_)
                  rw [hblocknames sec hsec] at heq
                  exact hne heq.symm
                rw [List.filter_append, hnilb, List.nil_append]
                exact createGo_sums hrec hnodup2 cinfo hm

/-- C3: for every instance with at least one room whose section creation
terminates, and whose course names are unique (a dict invariant), the sum
of `total_students` over the sections created for each course equals the
sum of `num_students` over the course's registered curriculums, and every
created section's `total_students` is at most the maximum room capacity. -/
theorem claim_C3 (I : TimetablingInstance) (secs : List CourseSection)
    (_hrooms : I.rooms ≠ [])
    (hnodup : (I.course_base_info.map Prod.fst).Nodup)
    (hcreate : create_course_sections I = some secs) :
    (∀ cinfo ∈ I.course_base_info,
      ((secs.filter (fun sec => sec.course_name == cinfo.1)).map
        CourseSection.total_students).sum =
      (cinfo.2.filterMap (fun cid =>
        (List.lookup cid I.curriculums).map Curriculum.num_students)).sum) ∧
    ∀ sec ∈ secs, sec.total_students ≤ maxCapacity I := by
  unfold create_course_sections at hcreate
  by_cases hemp : I.rooms.isEmpty
  · rw [if_pos hemp] at hcreate
    exact absurd hcreate (by simp)
  · rw [if_neg hemp] at hcreate
    constructor
    · intro cinfo hmem
      rw [← courseCurriculumStudents_sum]
      exact createGo_sums hcreate hnodup cinfo hmem
    · intro sec hsec
      exact (createGo_mem hcreate sec hsec).2

/-- C3 witness: a course with two curriculums of 60 students and a room of
capacity 100 splits into two sections of 60; sums and bounds check out. -/
theorem claim_C3_witness :
    create_course_sections exC3 = some exC3sections ∧
    ((exC3sections.filter (fun sec => sec.course_name == "A")).map
      CourseSection.total_students).sum =
      (([1, 2] : List ℕ).filterMap (fun cid =>
        (List.lookup cid exC3.curriculums).map Curriculum.num_students)).sum ∧
    ∀ sec ∈ exC3sections, sec.total_students ≤ maxCapacity exC3 := by
  have h := claim_C3 exC3 exC3sections (by decide) (by decide) (by decide)
  exact ⟨by decide, h.1 ("A", [1, 2]) (by decide), h.2⟩

theorem btTry_keys {I : TimetablingInstance}
    {recurse : BTState → ℕ → Option (Bool × BTState × ℕ)} {sid : ℕ}
    (Q : ℕ → Prop)
    (hrec : ∀ st c st2 c2, recurse st c = some (true, st2, c2) →
      ∀ k, k ∈ st.result_assignments.map Prod.fst ∨ Q k →
        k ∈ st2.result_assignments.map Prod.fst) :
    ∀ {cl : List (ℕ × ℕ × ℕ)} {st : BTState} {cnt : ℕ} {st2 : BTState}
      {c2 : ℕ},
      btTry I recurse sid cl st cnt = some (true, st2, c2) →
      ∀ k, k ∈ st.result_assignments.map Prod.fst ∨ k = sid ∨ Q k →
        k ∈ st2.result_assignments.map Prod.fst
  | [], st, cnt, st2, c2, h, k, hk => by
    simp only [btTry] at h
    exact absurd h (by simp)
  | (p, r, t) :: more, st, cnt, st2, c2, h, k, hk => by
    simp only [btTry] at h
    cases hc : btConflicts I st sid p r t with
    | none => rw [hc] at h; exact absurd h (by simp)
    | some b =>
      cases b with
      | true =>
        simp only [hc] at h
        exact btTry_keys Q hrec h k hk
      | false =>
        simp only [hc] at h
        cases hp : btPlace I st sid p r t with
        | none => rw [hp] at h; exact absurd h (by simp)
        | some stP =>
          simp only [hp] at h
          have hkeysP : stP.result_assignments.map Prod.fst =
              st.result_assignments.map Prod.fst ++ [sid] := by
            unfold btPlace at hp
            cases hl : List.lookup sid I.course_sections with
            | none => rw [hl] at hp; exact absurd hp (by simp)
            | some sec =>
              rw [hl] at hp
              cases hp
              simp
          cases hr : recurse stP cnt with
          | none => rw [hr] at h; exact absurd h (by simp)
          | some q =>
            obtain ⟨f, st3, c3⟩ := q
            cases f with
            | true =>
              simp only [hr] at h
              cases h
              refine hrec stP cnt _ _ hr k ?_
              rcases hk with hk | rfl | hk
              · exact Or.inl (by rw [hkeysP]; exact List.mem_append_left _ hk)
              · exact Or.inl (by rw [hkeysP]; simp)
              · exact Or.inr hk
            | false =>
              simp only [hr] at h
              exact btTry_keys Q hrec h k hk

theorem btDfs_keys {I : TimetablingInstance} {cands : ℕ → List (ℕ × ℕ × ℕ)}
    {timedOut : ℕ → Bool} :
    ∀ {sids : List ℕ} {st : BTState} {cnt : ℕ} {st2 : BTState} {c2 : ℕ},
      btDfs I cands timedOut sids st cnt = some (true, st2, c2) →
      ∀ k, k ∈ st.result_assignments.map Prod.fst ∨ k ∈ sids →
        k ∈ st2.result_assignments.map Prod.fst
  | [], st, cnt, st2, c2, h, k, hk => by
    simp only [btDfs] at h
    by_cases ht : timedOut cnt
    · rw [if_pos ht] at h; exact absurd h (by simp)
    · rw [if_neg ht] at h
      cases h
      rcases hk with hk | hk
      · exact hk
      · exact absurd hk (List.not_mem_nil k)
  | sid :: rest, st, cnt, st2, c2, h, k, hk => by
    simp only [btDfs] at h
    by_cases ht : timedOut cnt
    · rw [if_pos ht] at h; exact absurd h (by simp)
    · rw [if_neg ht] at h
      refine btTry_keys (fun x => x ∈ rest)
        (fun stA cA stB cB hAB k2 hk2 => btDfs_keys hAB k2 hk2) h k ?_
      rcases hk with hk | hk
      · exact Or.inl hk
      · rcases List.mem_cons.mp hk with rfl | hm
        · exact Or.inr (Or.inl rfl)
        · exact Or.inr (Or.inr hm)

theorem insertAscBy_perm (key : ℕ → ℕ) (x : ℕ) :
    ∀ l : List ℕ, (insertAscBy key x l).Perm (x :: l)
  | [] => List.Perm.refl _
  | y :: ys => by
    simp only [insertAscBy]
    by_cases hy : key x ≤ key y
    · rw [if_pos hy]
    · rw [if_neg hy]
      exact ((insertAscBy_perm key x ys).cons y).trans (List.Perm.swap x y ys)

theorem sortAscBy_perm (key : ℕ → ℕ) :
    ∀ l : List ℕ, (sortAscBy key l).Perm l
  | [] => List.Perm.refl _
  | x :: xs =>
    (insertAscBy_perm key x (sortAscBy key xs)).trans
      ((sortAscBy_perm key xs).cons x)

/-- C6: whatever the wall-clock oracle decides at each recursion entry,
when `solve_timetabling_bruteforce` reports `found = true` its assignment
dict is complete (every section id of the instance is assigned), and
whenever it reports `found = false` (exhausted search or timeout at any
entry) the returned assignment dict is empty. Elapsed-seconds bookkeeping
is wall-clock output and is not modelled. -/
theorem claim_C6 (I : TimetablingInstance) (timedOut : ℕ → Bool)
    (found : Bool) (A : List (ℕ × Assignment))
    (h : solve_timetabling_bruteforce I timedOut = some (found, A)) :
    (found = true → ∀ sid ∈ I.course_sections.map Prod.fst,
      ∃ a, List.lookup sid A = some a) ∧
    (found = false → A = []) := by
  unfold solve_timetabling_bruteforce at h
  cases hd : btDfs I (bruteCandsFor I) timedOut (btOrdered I) ⟨∅, ∅, ∅, []⟩ 0 with
  | none => rw [hd] at h; exact absurd h (by simp)
  | some q =>
    obtain ⟨f, st, c⟩ := q
    rw [hd] at h
    cases h
    constructor
    · intro hft sid hsid
      subst hft
      simp only [if_pos]
      refine exists_lookup_of_mem_keys ?_
      refine btDfs_keys hd sid (Or.inr ?_)
      exact ((sortAscBy_perm _ _).mem_iff).mpr hsid
    · intro hff
      subst hff
      simp
  
/-- C6 witness: on `exC2w` with a clock that never expires the solver
finds a complete solution, and completeness follows from the theorem. -/
theorem claim_C6_witness :
    solve_timetabling_bruteforce exC2w (fun _ => false) =
      some (true, [(1, Assignment.mk 1 1 1 1), (2, Assignment.mk 2 2 1 1)]) ∧
    ∃ a, List.lookup 2 [(1, Assignment.mk 1 1 1 1), (2, Assignment.mk 2 2 1 1)]
      = some a := by
  have hrun : solve_timetabling_bruteforce exC2w (fun _ => false) =
      some (true, [(1, Assignment.mk 1 1 1 1), (2, Assignment.mk 2 2 1 1)]) := by
    decide
  have h := claim_C6 exC2w (fun _ => false) true
    [(1, Assignment.mk 1 1 1 1), (2, Assignment.mk 2 2 1 1)] hrun
  exact ⟨hrun, h.1 rfl 2 (by decide)⟩

/-- C8 (code bug): on `exC8`, with a coloring that gives both sections
period 1, the driver assigns both sections to room 1 in period 1 — the
cumulative `used_capacity` check lets a room be reused within a period
whenever the seats still fit, although the code's own comment
(timetabling_solver.py:214) and the room-uniqueness hard constraint I6
demand a room not yet used in that period. The resulting assignment set
violates I6 (`satI6` fails), so the driver emits solutions its own
`check_hard_constraints` rejects. -/
theorem claim_C8 :
    solve_timetabling_with_graph_coloring exC8 [(1, 1), (2, 1)] =
      Except.ok [(1, Assignment.mk 1 1 1 1), (2, Assignment.mk 2 1 1 2)] ∧
    ¬ satI6 [(1, Assignment.mk 1 1 1 1), (2, Assignment.mk 2 1 1 2)] := by
  constructor
  · decide
  · decide

theorem exC5_check_eval :
    check_hard_constraints (withAssignments exC5 [(1, Assignment.mk 1 1 1 1)]) =
      Except.ok (true, []) := by
  decide

theorem exC5_objective_eval :
    calculate_objective (withAssignments exC5 [(1, Assignment.mk 1 1 1 1)]) =
      Except.ok 10 := by
  norm_num [calculate_objective, calcObjGo, objFirstMatch, prefMatchesCode,
    exC5, withAssignments, List.lookup]

/-- C5 (code bug): on the feasible input `exC5` with objective 10,
`_evaluate_solution` returns cost exactly 10 — the objective value with
no negation — while the claim (and the spec) state the cost is the
objective inverted for minimization, −10; the sibling genetic-algorithm
evaluator (experimental.py:808) does negate, and `GRASPSolution.__lt__`
minimizes cost, so the missing negation makes GRASP prefer low-objective
solutions. The penalty branch adds `1000 · |violations|` as claimed. -/
theorem claim_C5 :
    evaluate_solution exC5 (fun _ l => l) 1 [(1, Assignment.mk 1 1 1 1)] =
      Except.ok ⟨[(1, Assignment.mk 1 1 1 1)], 10, true, []⟩ ∧
    calculate_objective (withAssignments exC5 [(1, Assignment.mk 1 1 1 1)]) =
      Except.ok 10 ∧
    (10 : ℚ) ≠ -10 := by
  refine ⟨?_, exC5_objective_eval, by norm_num⟩
  unfold evaluate_solution
  simp only [exC5_check_eval, exC5_objective_eval]
  simp

theorem filter_shift_length (c : ℕ) :
    ∀ used : List ℕ,
      (used.filter (fun x => c + 1 ≤ x)).length +
        (if c ∈ used then 1 else 0) ≤
        (used.filter (fun x => c ≤ x)).length
  | [] => by simp
  | x :: rest => by
    have ih := filter_shift_length c rest
    by_cases hcr : c ∈ rest <;>
      by_cases hcx : c = x <;>
        by_cases h1 : c + 1 ≤ x <;>
          by_cases h2 : c ≤ x
    all_goals simp_all [List.filter_cons]
    all_goals omega

theorem firstFreeGo_spec (used : List ℕ) :
    ∀ (f c : ℕ), (used.filter (fun x => c ≤ x)).length < f →
      firstFreeGo used c f ∉ used ∧ c ≤ firstFreeGo used c f
  | 0, c, h => absurd h (by omega)
  | f + 1, c, h => by
    simp only [firstFreeGo]
    by_cases hc : c ∈ used
    · rw [if_pos hc]
      have hshift := filter_shift_length c used
      rw [if_pos hc] at hshift
      obtain ⟨h1, h2⟩ := firstFreeGo_spec used f (c + 1) (by omega)
      exact ⟨h1, by omega⟩
    · rw [if_neg hc]
      exact ⟨hc, Nat.le_refl c⟩

theorem firstFreeColor_spec (used : List ℕ) :
    firstFreeColor used ∉ used ∧ 1 ≤ firstFreeColor used := by
  refine firstFreeGo_spec used (used.length + 1) 1 ?_
  have := List.length_filter_le (fun x => decide (1 ≤ x)) used
  omega

theorem mem_neighborColors {G : GraphInstance} {colors : List (ℕ × ℕ)}
    {v w cw : ℕ} (h1 : w ∈ getNeighbors G v)
    (h2 : List.lookup w colors = some cw) :
    cw ∈ neighborColors G colors v :=
  List.mem_filterMap.mpr ⟨w, mem_sortedPeriods.mpr h1, h2⟩

theorem lookup_cons_self {β : Type} {v : ℕ} {c : β} {l : List (ℕ × β)} :
    List.lookup v ((v, c) :: l) = some c := by
  simp [List.lookup]

theorem lookup_cons_ne {β : Type} {u v : ℕ} {c : β} {l : List (ℕ × β)}
    (h : u ≠ v) : List.lookup u ((v, c) :: l) = List.lookup u l := by
  have : (u == v) = false := beq_eq_false_iff_ne.mpr h
  simp [List.lookup, this]

theorem properColors_assignSmallest {G : GraphInstance}
    (Hsym : ∀ u v, u ∈ getNeighbors G v → v ∈ getNeighbors G u)
    {colors : List (ℕ × ℕ)} (hprop : properColors G colors) (v : ℕ) :
    properColors G (assignSmallest G colors v) := by
  intro u w cu cw hne hadj hu hw
  unfold assignSmallest at hu hw
  have hfree := (firstFreeColor_spec (neighborColors G colors v)).1
  by_cases huv : u = v
  · subst huv
    rw [lookup_cons_self] at hu
    cases hu
    rw [lookup_cons_ne (fun h => hne h.symm)] at hw
    have hwadj : w ∈ getNeighbors G u := Hsym u w hadj
    intro hcontra
    rw [hcontra] at hfree
    exact hfree (mem_neighborColors hwadj hw)
  · rw [lookup_cons_ne huv] at hu
    by_cases hwv : w = v
    · subst hwv
      rw [lookup_cons_self] at hw
      cases hw
      intro hcontra
      rw [← hcontra] at hfree
      exact hfree (mem_neighborColors hadj hu)
    · rw [lookup_cons_ne hwv] at hw
      exact hprop u w cu cw hne hadj hu hw

/-- All assigned colors are at least 1. -/
def colorsGe1 (colors : List (ℕ × ℕ)) : Prop :=
  ∀ v c, List.lookup v colors = some c → 1 ≤ c

theorem colorsGe1_assignSmallest {G : GraphInstance}
    {colors : List (ℕ × ℕ)} (h : colorsGe1 colors) (v : ℕ) :
    colorsGe1 (assignSmallest G colors v) := by
  intro u c hu
  unfold assignSmallest at hu
  by_cases huv : u = v
  · subst huv
    rw [lookup_cons_self] at hu
    cases hu
    exact (firstFreeColor_spec _).2
  · rw [lookup_cons_ne huv] at hu
    exact h u c hu

theorem lookup_assignSmallest_isSome {G : GraphInstance}
    {colors : List (ℕ × ℕ)} {u : ℕ} (v : ℕ)
    (h : (List.lookup u colors).isSome) :
    (List.lookup u (assignSmallest G colors v)).isSome := by
  unfold assignSmallest
  by_cases huv : u = v
  · subst huv
    rw [lookup_cons_self]
    rfl
  · rw [lookup_cons_ne huv]
    exact h

theorem greedy_fold_proper {G : GraphInstance}
    (Hsym : ∀ u v, u ∈ getNeighbors G v → v ∈ getNeighbors G u) :
    ∀ (order : List ℕ) (colors : List (ℕ × ℕ)),
      properColors G colors →
      properColors G (order.foldl (fun cs v => assignSmallest G cs v) colors)
  | [], _, h => h
  | v :: rest, _, h =>
    greedy_fold_proper Hsym rest _ (properColors_assignSmallest Hsym h v)

theorem greedy_fold_ge1 {G : GraphInstance} :
    ∀ (order : List ℕ) (colors : List (ℕ × ℕ)),
      colorsGe1 colors →
      colorsGe1 (order.foldl (fun cs v => assignSmallest G cs v) colors)
  | [], _, h => h
  | v :: rest, _, h =>
    greedy_fold_ge1 rest _ (colorsGe1_assignSmallest h v)

theorem greedy_fold_total {G : GraphInstance} :
    ∀ (order : List ℕ) (colors : List (ℕ × ℕ)) (u : ℕ),
      (u ∈ order ∨ (List.lookup u colors).isSome) →
      (List.lookup u
        (order.foldl (fun cs v => assignSmallest G cs v) colors)).isSome
  | [], colors, u, h => by
    rcases h with h | h
    · exact absurd h (List.not_mem_nil u)
    · exact h
  | v :: rest, colors, u, h => by
    refine greedy_fold_total rest _ u ?_
    by_cases huv : u = v
    · subst huv
      refine Or.inr ?_
      unfold assignSmallest
      rw [lookup_cons_self]
      rfl
    · rcases h with h | h
      · rcases List.mem_cons.mp h with heq | hm
        · exact absurd heq huv
        · exact Or.inl hm
      · exact Or.inr (lookup_assignSmallest_isSome v h)

theorem collectMax_fold_mem {f : ℕ → ℤ} :
    ∀ (l : List ℕ) (acc : ℤ × List ℕ) (x : ℕ),
      x ∈ (l.foldl (fun acc v =>
        if f v > acc.1 then (f v, [v])
        else if f v = acc.1 then (acc.1, acc.2 ++ [v])
        else acc) acc).2 → x ∈ acc.2 ∨ x ∈ l
  | [], acc, x, h => Or.inl h
  | v :: rest, acc, x, h => by
    rcases collectMax_fold_mem rest _ x h with h2 | h2
    · beta_reduce at h2
      by_cases hgt : f v > acc.1
      · rw [if_pos hgt] at h2
        simp only [List.mem_singleton] at h2
        exact Or.inr (by simp [h2])
      · rw [if_neg hgt] at h2
        by_cases heq : f v = acc.1
        · rw [if_pos heq] at h2
          rcases List.mem_append.mp h2 with h3 | h3
          · exact Or.inl h3
          · simp only [List.mem_singleton] at h3
            exact Or.inr (by simp [h3])
        · rw [if_neg heq] at h2
          exact Or.inl h2
    · exact Or.inr (List.mem_cons_of_mem _ h2)

theorem collectMax_fold_ne {f : ℕ → ℤ} :
    ∀ (l : List ℕ) (acc : ℤ × List ℕ),
      (acc.2 ≠ [] ∨ ∃ v ∈ l, f v > acc.1) →
      (l.foldl (fun acc v =>
        if f v > acc.1 then (f v, [v])
        else if f v = acc.1 then (acc.1, acc.2 ++ [v])
        else acc) acc).2 ≠ []
  | [], acc, h => by
    rcases h with h | ⟨v, hv, _⟩
    · exact h
    · exact absurd hv (List.not_mem_nil v)
  | v :: rest, acc, h => by
    refine collectMax_fold_ne rest _ ?_
    beta_reduce
    by_cases hgt : f v > acc.1
    · rw [if_pos hgt]
      exact Or.inl (by simp)
    · rw [if_neg hgt]
      by_cases heq : f v = acc.1
      · rw [if_pos heq]
        exact Or.inl (by simp)
      · rw [if_neg heq]
        rcases h with h | ⟨w, hw, hfw⟩
        · exact Or.inl h
        · rcases List.mem_cons.mp hw with rfl | hm
          · exact absurd hfw (by omega)
          · exact Or.inr ⟨w, hm, hfw⟩

theorem collectMax_mem {f : ℕ → ℤ} {l : List ℕ} {x : ℕ}
    (h : x ∈ (collectMax f l).2) : x ∈ l := by
  rcases collectMax_fold_mem l (-1, []) x h with h2 | h2
  · exact absurd h2 (List.not_mem_nil x)
  · exact h2

theorem collectMax_ne {f : ℕ → ℤ} {l : List ℕ}
    (h : ∃ v ∈ l, f v > -1) : (collectMax f l).2 ≠ [] :=
  collectMax_fold_ne l (-1, []) (Or.inr h)

theorem headD_mem {l : List ℕ} (h : l ≠ []) : l.headD 0 ∈ l := by
  cases l with
  | nil => exact absurd rfl h
  | cons x rest => simp

theorem sortedPeriods_ne_nil {s : Finset ℕ} (h : s ≠ ∅) :
    sortedPeriods s ≠ [] := by
  obtain ⟨x, hx⟩ := Finset.nonempty_iff_ne_empty.mpr h
  exact List.ne_nil_of_mem (mem_sortedPeriods.mpr hx)

theorem dsaturPick_mem {G : GraphInstance} {colors : List (ℕ × ℕ)}
    {X : Finset ℕ} {pick : List ℕ → ℕ} (hX : X ≠ ∅)
    (hpick : ∀ l, l ≠ [] → pick l ∈ l) :
    dsaturPick G colors X pick ∈ X := by
  simp only [dsaturPick]
  have hne1 : (collectMax (saturation G colors X) (sortedPeriods X)).2 ≠ [] := by
    refine collectMax_ne ?_
    obtain ⟨x, hx⟩ := Finset.nonempty_iff_ne_empty.mpr hX
    refine ⟨x, mem_sortedPeriods.mpr hx, ?_⟩
    have hsat : saturation G colors X x =
        ((neighborColors G colors x).toFinset.card : ℤ) := by
      unfold saturation
      rw [if_neg (by simp [hx])]
    rw [hsat]
    omega
  have hsub1 : ∀ y ∈ (collectMax (saturation G colors X) (sortedPeriods X)).2,
      y ∈ X := fun y hy => mem_sortedPeriods.mp (collectMax_mem hy)
  by_cases hlen : (collectMax (saturation G colors X) (sortedPeriods X)).2.length > 1
  · rw [if_pos hlen]
    have hne2 : (collectMax (fun v => (getDegree G v : ℤ))
        (collectMax (saturation G colors X) (sortedPeriods X)).2).2 ≠ [] := by
      refine collectMax_ne ?_
      obtain ⟨y, hy⟩ := List.exists_mem_of_ne_nil _ hne1
      exact ⟨y, hy, by omega⟩
    have hsub2 : ∀ y ∈ (collectMax (fun v => (getDegree G v : ℤ))
        (collectMax (saturation G colors X) (sortedPeriods X)).2).2, y ∈ X :=
      fun y hy => hsub1 y (collectMax_mem hy)
    by_cases hlen2 : (collectMax (fun v => (getDegree G v : ℤ))
        (collectMax (saturation G colors X) (sortedPeriods X)).2).2.length > 1
    · rw [if_pos hlen2]
      exact hsub2 _ (hpick _ hne2)
    · rw [if_neg hlen2]
      exact hsub2 _ (headD_mem hne2)
  · rw [if_neg hlen, if_neg hlen]
    exact hsub1 _ (headD_mem hne1)

theorem dsaturGo_proper {G : GraphInstance} {pick : List ℕ → ℕ}
    (Hsym : ∀ u v, u ∈ getNeighbors G v → v ∈ getNeighbors G u) :
    ∀ (fuel : ℕ) (X : Finset ℕ) (colors : List (ℕ × ℕ)),
      properColors G colors → properColors G (dsaturGo G pick fuel X colors)
  | 0, _, _, h => h
  | fuel + 1, X, colors, h => by
    simp only [dsaturGo]
    by_cases hX : X = ∅
    · rw [if_pos hX]; exact h
    · rw [if_neg hX]
      exact dsaturGo_proper Hsym fuel _ _
        (properColors_assignSmallest Hsym h _)

theorem dsaturGo_ge1 {G : GraphInstance} {pick : List ℕ → ℕ} :
    ∀ (fuel : ℕ) (X : Finset ℕ) (colors : List (ℕ × ℕ)),
      colorsGe1 colors → colorsGe1 (dsaturGo G pick fuel X colors)
  | 0, _, _, h => h
  | fuel + 1, X, colors, h => by
    simp only [dsaturGo]
    by_cases hX : X = ∅
    · rw [if_pos hX]; exact h
    · rw [if_neg hX]
      exact dsaturGo_ge1 fuel _ _ (colorsGe1_assignSmallest h _)

theorem dsaturGo_total {G : GraphInstance} {pick : List ℕ → ℕ}
    (hpick : ∀ l, l ≠ [] → pick l ∈ l) :
    ∀ (fuel : ℕ) (X : Finset ℕ) (colors : List (ℕ × ℕ)),
      X.card ≤ fuel →
      ∀ u, (u ∈ X ∨ (List.lookup u colors).isSome) →
        (List.lookup u (dsaturGo G pick fuel X colors)).isSome
  | 0, X, colors, hcard, u, hu => by
    rcases hu with hu | hu
    · have : X = ∅ := Finset.card_eq_zero.mp (Nat.le_zero.mp hcard)
      subst this
      exact absurd hu (Finset.not_mem_empty u)
    · exact hu
  | fuel + 1, X, colors, hcard, u, hu => by
    simp only [dsaturGo]
    by_cases hX : X = ∅
    · rw [if_pos hX]
      rcases hu with hu | hu
      · subst hX
        exact absurd hu (Finset.not_mem_empty u)
      · exact hu
    · rw [if_neg hX]
      have hv : dsaturPick G colors X pick ∈ X := dsaturPick_mem hX hpick
      refine dsaturGo_total hpick fuel _ _ ?_ u ?_
      · have := Finset.card_erase_of_mem hv
        omega
      · rcases hu with hu | hu
        · by_cases huv : u = dsaturPick G colors X pick
          · refine Or.inr ?_
            rw [huv]
            unfold assignSmallest
            rw [lookup_cons_self]
            rfl
          · exact Or.inl (Finset.mem_erase_of_ne_of_mem huv hu)
        · exact Or.inr (lookup_assignSmallest_isSome _ hu)

theorem rlfSelect_isSome {G : GraphInstance} {X : Finset ℕ}
    {pick : List ℕ → ℕ} (hX : X ≠ ∅) : (rlfSelect G X pick).isSome := by
  simp only [rlfSelect]
  have hne : (collectMax (fun v => ((getNeighbors G v ∩ X).card : ℤ))
      (sortedPeriods X)).2 ≠ [] := by
    refine collectMax_ne ?_
    obtain ⟨x, hx⟩ := Finset.nonempty_iff_ne_empty.mpr hX
    exact ⟨x, mem_sortedPeriods.mpr hx, by omega⟩
  rw [if_neg (by simp [List.isEmpty_iff, hne])]
  rfl

theorem rlfSelect_mem {G : GraphInstance} {X : Finset ℕ}
    {pick : List ℕ → ℕ} {v : ℕ} (hpick : ∀ l, l ≠ [] → pick l ∈ l)
    (h : rlfSelect G X pick = some v) : v ∈ X := by
  simp only [rlfSelect] at h
  by_cases he : ((collectMax (fun v => ((getNeighbors G v ∩ X).card : ℤ))
      (sortedPeriods X)).2).isEmpty
  · rw [if_pos he] at h
    exact absurd h (by simp)
  · rw [if_neg he] at h
    have hne : (collectMax (fun v => ((getNeighbors G v ∩ X).card : ℤ))
        (sortedPeriods X)).2 ≠ [] := by
      intro hnil
      exact he (by simp [hnil])
    have hv := hpick _ hne
    cases h
    exact mem_sortedPeriods.mp (collectMax_mem hv)

theorem rlfInner_spec {G : GraphInstance} {pick : List ℕ → ℕ}
    (Hsym : ∀ u v, u ∈ getNeighbors G v → v ∈ getNeighbors G u)
    (hpick : ∀ l, l ≠ [] → pick l ∈ l) :
    ∀ (fuel color : ℕ) (X Y : Finset ℕ) (colors : List (ℕ × ℕ)),
      1 ≤ color →
      (∀ w c, List.lookup w colors = some c → c ≤ color) →
      (∀ u ∈ X, ∀ w, List.lookup w colors = some color →
        u ∉ getNeighbors G w) →
      properColors G colors → colorsGe1 colors →
      (∀ w c, List.lookup w
        (rlfInner G pick color fuel X Y colors).2 = some c → c ≤ color) ∧
      properColors G (rlfInner G pick color fuel X Y colors).2 ∧
      colorsGe1 (rlfInner G pick color fuel X Y colors).2
  | 0, color, X, Y, colors, _, hA, _, hD, hGe => ⟨hA, hD, hGe⟩
  | fuel + 1, color, X, Y, colors, hc1, hA, hC, hD, hGe => by
    simp only [rlfInner]
    by_cases hX : X = ∅
    · rw [if_pos hX]
      exact ⟨hA, hD, hGe⟩
    · rw [if_neg hX]
      cases hsel : rlfSelect G X pick with
      | none => exact ⟨hA, hD, hGe⟩
      | some v =>
        have hv : v ∈ X := rlfSelect_mem hpick hsel
        have hA2 : ∀ w c, List.lookup w ((v, color) :: colors) = some c →
            c ≤ color := by
          intro w c hw
          by_cases hwv : w = v
          · subst hwv
            rw [lookup_cons_self] at hw
            cases hw
            exact Nat.le_refl color
          · rw [lookup_cons_ne hwv] at hw
            exact hA w c hw
        have hC2 : ∀ u ∈ (X.erase v) \ (getNeighbors G v ∩ X), ∀ w,
            List.lookup w ((v, color) :: colors) = some color →
              u ∉ getNeighbors G w := by
          intro u hu w hw
          have hu2 := Finset.mem_sdiff.mp hu
          have huX : u ∈ X := Finset.mem_of_mem_erase hu2.1
          by_cases hwv : w = v
          · subst hwv
            intro hadj
            exact hu2.2 (Finset.mem_inter.mpr ⟨hadj, huX⟩)
          · rw [lookup_cons_ne hwv] at hw
            exact hC u huX w hw
        have hD2 : properColors G ((v, color) :: colors) := by
          intro a b ca cb hab hadj ha hb
          by_cases hav : a = v
          · subst hav
            rw [lookup_cons_self] at ha
            cases ha
            rw [lookup_cons_ne (Ne.symm hab)] at hb
            intro hcb
            rw [← hcb] at hb
            exact hC _ hv b hb hadj
          · rw [lookup_cons_ne hav] at ha
            by_cases hbv : b = v
            · subst hbv
              rw [lookup_cons_self] at hb
              cases hb
              intro hca
              rw [hca] at ha
              exact hC _ hv a ha (Hsym a _ hadj)
            · rw [lookup_cons_ne hbv] at hb
              exact hD a b ca cb hab hadj ha hb
        have hGe2 : colorsGe1 ((v, color) :: colors) := by
          intro w c hw
          by_cases hwv : w = v
          · subst hwv
            rw [lookup_cons_self] at hw
            cases hw
            exact hc1
          · rw [lookup_cons_ne hwv] at hw
            exact hGe w c hw
        exact rlfInner_spec Hsym hpick fuel color _ _ _ hc1 hA2 hC2 hD2 hGe2

theorem rlfInner_total {G : GraphInstance} {pick : List ℕ → ℕ}
    (Hirr : ∀ v, v ∉ getNeighbors G v)
    (hpick : ∀ l, l ≠ [] → pick l ∈ l) :
    ∀ (fuel color : ℕ) (X Y : Finset ℕ) (colors : List (ℕ × ℕ)),
      X.card ≤ fuel → Disjoint X Y →
      (∀ u ∈ X ∪ Y, List.lookup u colors = none) →
      (∀ u, (List.lookup u colors).isSome →
        (List.lookup u (rlfInner G pick color fuel X Y colors).2).isSome) ∧
      (∀ u ∈ X ∪ Y,
        (List.lookup u (rlfInner G pick color fuel X Y colors).2).isSome ∨
          u ∈ (rlfInner G pick color fuel X Y colors).1) ∧
      (∀ u ∈ (rlfInner G pick color fuel X Y colors).1,
        u ∈ X ∪ Y ∧
          List.lookup u (rlfInner G pick color fuel X Y colors).2 = none) ∧
      (X ≠ ∅ → ∃ v ∈ X,
        (List.lookup v (rlfInner G pick color fuel X Y colors).2).isSome)
  | 0, color, X, Y, colors, hfuel, _, hB => by
    have hXe : X = ∅ := Finset.card_eq_zero.mp (Nat.le_zero.mp hfuel)
    subst hXe
    simp only [rlfInner]
    refine ⟨fun u hu => hu, ?_, ?_, ?_⟩
    · intro u hu
      exact Or.inr (by simpa using hu)
    · intro u hu
      exact ⟨by simpa using hu, hB u (by simpa using hu)⟩
    · intro hne
      exact absurd rfl hne
  | fuel + 1, color, X, Y, colors, hfuel, hdisj, hB => by
    simp only [rlfInner]
    by_cases hX : X = ∅
    · rw [if_pos hX]
      subst hX
      refine ⟨fun u hu => hu, ?_, ?_, ?_⟩
      · intro u hu
        exact Or.inr (by simpa using hu)
      · intro u hu
        exact ⟨by simpa using hu, hB u (by simpa using hu)⟩
      · intro hne
        exact absurd rfl hne
    · rw [if_neg hX]
      cases hsel : rlfSelect G X pick with
      | none =>
        have : (rlfSelect G X pick).isSome := rlfSelect_isSome hX
        rw [hsel] at this
        exact absurd this (by simp)
      | some v =>
        have hv : v ∈ X := rlfSelect_mem hpick hsel
        have hvnbr : v ∉ getNeighbors G v ∩ X :=
          fun h => Hirr v (Finset.mem_inter.mp h).1
        have hsubX2 : ∀ u ∈ (X.erase v) \ (getNeighbors G v ∩ X), u ∈ X :=
          fun u hu => Finset.mem_of_mem_erase (Finset.mem_sdiff.mp hu).1
        have hmem : ∀ u ∈ ((X.erase v) \ (getNeighbors G v ∩ X)) ∪
            (Y ∪ (getNeighbors G v ∩ X)), u ∈ X ∪ Y := by
          intro u hu
          rcases Finset.mem_union.mp hu with hu | hu
          · exact Finset.mem_union_left _ (hsubX2 u hu)
          · rcases Finset.mem_union.mp hu with hu | hu
            · exact Finset.mem_union_right _ hu
            · exact Finset.mem_union_left _ (Finset.mem_inter.mp hu).2
        have hnev : ∀ u ∈ ((X.erase v) \ (getNeighbors G v ∩ X)) ∪
            (Y ∪ (getNeighbors G v ∩ X)), u ≠ v := by
          intro u hu he
          subst he
          rcases Finset.mem_union.mp hu with h1 | h1
          · exact absurd rfl (Finset.ne_of_mem_erase (Finset.mem_sdiff.mp h1).1)
          · rcases Finset.mem_union.mp h1 with h2 | h2
            · exact Finset.disjoint_left.mp hdisj hv h2
            · exact hvnbr h2
        have hfuel2 : ((X.erase v) \ (getNeighbors G v ∩ X)).card ≤ fuel := by
          have h1 : ((X.erase v) \ (getNeighbors G v ∩ X)).card ≤
              (X.erase v).card := Finset.card_le_card Finset.sdiff_subset
          have h2 := Finset.card_erase_of_mem hv
          have h3 := Finset.card_pos.mpr ⟨v, hv⟩
          omega
        have hdisj2 : Disjoint ((X.erase v) \ (getNeighbors G v ∩ X))
            (Y ∪ (getNeighbors G v ∩ X)) := by
          rw [Finset.disjoint_left]
          intro u hu hu2
          have := Finset.mem_sdiff.mp hu
          rcases Finset.mem_union.mp hu2 with hu2 | hu2
          · exact Finset.disjoint_left.mp hdisj (hsubX2 u hu) hu2
          · exact this.2 hu2
        have hB2 : ∀ u ∈ ((X.erase v) \ (getNeighbors G v ∩ X)) ∪
            (Y ∪ (getNeighbors G v ∩ X)),
            List.lookup u ((v, color) :: colors) = none := by
          intro u hu
          rw [lookup_cons_ne (hnev u hu)]
          exact hB u (hmem u hu)
        obtain ⟨ia, ib, ic, _⟩ := rlfInner_total Hirr hpick fuel color
          ((X.erase v) \ (getNeighbors G v ∩ X))
          (Y ∪ (getNeighbors G v ∩ X)) ((v, color) :: colors)
          hfuel2 hdisj2 hB2
        have hvcol : (List.lookup v ((v, color) :: colors)).isSome := by
          rw [lookup_cons_self]
          rfl
        refine ⟨?_, ?_, ?_, ?_⟩
        · intro u hu
          refine ia u ?_
          by_cases huv : u = v
          · subst huv
            exact hvcol
          · rw [lookup_cons_ne huv]
            exact hu
        · intro u hu
          by_cases huv : u = v
          · subst huv
            exact Or.inl (ia u hvcol)
          · refine ib u ?_
            rcases Finset.mem_union.mp hu with hu | hu
            · by_cases hun : u ∈ getNeighbors G v ∩ X
              · exact Finset.mem_union_right _ (Finset.mem_union_right _ hun)
              · refine Finset.mem_union_left _ ?_
                exact Finset.mem_sdiff.mpr
                  ⟨Finset.mem_erase.mpr ⟨huv, hu⟩, hun⟩
            · exact Finset.mem_union_right _ (Finset.mem_union_left _ hu)
        · intro u hu
          obtain ⟨hu1, hu2⟩ := ic u hu
          exact ⟨hmem u hu1, hu2⟩
        · intro _
          exact ⟨v, hv, ia v hvcol⟩

theorem rlfOuter_proper {G : GraphInstance} {pick : List ℕ → ℕ}
    (Hsym : ∀ u v, u ∈ getNeighbors G v → v ∈ getNeighbors G u)
    (hpick : ∀ l, l ≠ [] → pick l ∈ l) :
    ∀ (fuel : ℕ) (X : Finset ℕ) (color : ℕ) (colors : List (ℕ × ℕ)),
      1 ≤ color →
      (∀ w c, List.lookup w colors = some c → c < color) →
      properColors G colors → colorsGe1 colors →
      properColors G (rlfOuter G pick fuel X color colors) ∧
      colorsGe1 (rlfOuter G pick fuel X color colors)
  | 0, X, color, colors, _, _, hD, hGe => ⟨hD, hGe⟩
  | fuel + 1, X, color, colors, hc1, hA, hD, hGe => by
    simp only [rlfOuter]
    by_cases hX : X = ∅
    · rw [if_pos hX]
      exact ⟨hD, hGe⟩
    · rw [if_neg hX]
      have hAle : ∀ w c, List.lookup w colors = some c → c ≤ color :=
        fun w c hw => Nat.le_of_lt (hA w c hw)
      have hC : ∀ u ∈ X, ∀ w, List.lookup w colors = some color →
          u ∉ getNeighbors G w := by
        intro u _ w hw
        exact absurd (hA w color hw) (Nat.lt_irrefl color)
      obtain ⟨iA, iD, iGe⟩ := rlfInner_spec Hsym hpick X.card color X ∅
        colors hc1 hAle hC hD hGe
      refine rlfOuter_proper Hsym hpick fuel _ (color + 1) _ ?_ ?_ iD iGe
      · omega
      · intro w c hw
        have := iA w c hw
        omega

theorem rlfOuter_total {G : GraphInstance} {pick : List ℕ → ℕ}
    (Hirr : ∀ v, v ∉ getNeighbors G v)
    (hpick : ∀ l, l ≠ [] → pick l ∈ l) :
    ∀ (fuel : ℕ) (X : Finset ℕ) (color : ℕ) (colors : List (ℕ × ℕ)),
      X.card ≤ fuel →
      (∀ u ∈ X, List.lookup u colors = none) →
      ∀ u, (u ∈ X ∨ (List.lookup u colors).isSome) →
        (List.lookup u (rlfOuter G pick fuel X color colors)).isSome
  | 0, X, color, colors, hfuel, _, u, hu => by
    have hXe : X = ∅ := Finset.card_eq_zero.mp (Nat.le_zero.mp hfuel)
    subst hXe
    rcases hu with hu | hu
    · exact absurd hu (Finset.not_mem_empty u)
    · exact hu
  | fuel + 1, X, color, colors, hfuel, hB, u, hu => by
    simp only [rlfOuter]
    by_cases hX : X = ∅
    · rw [if_pos hX]
      subst hX
      rcases hu with hu | hu
      · exact absurd hu (Finset.not_mem_empty u)
      · exact hu
    · rw [if_neg hX]
      have hB2 : ∀ w ∈ X ∪ ∅, List.lookup w colors = none := by
        intro w hw
        exact hB w (by simpa using hw)
      obtain ⟨ia, ib, ic, id⟩ := rlfInner_total Hirr hpick X.card color X ∅
        colors (Nat.le_refl _) (Finset.disjoint_empty_right X) hB2
      obtain ⟨v, hvX, hvcol⟩ := id hX
      have hsub : (rlfInner G pick color X.card X ∅ colors).1 ⊆ X := by
        intro w hw
        have := (ic w hw).1
        simpa using this
      have hvnot : v ∉ (rlfInner G pick color X.card X ∅ colors).1 := by
        intro hv2
        have := (ic v hv2).2
        rw [this] at hvcol
        exact absurd hvcol (by simp)
      have hlt : (rlfInner G pick color X.card X ∅ colors).1.card < X.card :=
        Finset.card_lt_card
          ((Finset.ssubset_iff_of_subset hsub).mpr ⟨v, hvX, hvnot⟩)
      refine rlfOuter_total Hirr hpick fuel _ (color + 1) _ ?_ ?_ u ?_
      · omega
      · intro w hw
        exact (ic w hw).2
      · rcases hu with hu | hu
        · rcases ib u (by simpa using hu) with h | h
          · exact Or.inr h
          · exact Or.inl h
        · exact Or.inr (ia u hu)

theorem exK3_neighbors (v : ℕ) :
    getNeighbors exK3 v =
      if v = 1 then ({2, 3} : Finset ℕ)
      else if v = 2 then {1, 3}
      else if v = 3 then {1, 2} else ∅ := by
  by_cases h1 : v = 1
  · subst h1
    decide
  · by_cases h2 : v = 2
    · subst h2
      decide
    · by_cases h3 : v = 3
      · subst h3
        decide
      · rw [if_neg h1, if_neg h2, if_neg h3]
        unfold getNeighbors exK3
        rw [lookup_cons_ne h1, lookup_cons_ne h2, lookup_cons_ne h3]
        rfl

theorem exK3_sym : ∀ u v, u ∈ getNeighbors exK3 v → v ∈ getNeighbors exK3 u := by
  intro u v h
  rw [exK3_neighbors] at h
  split_ifs at h with hv1 hv2 hv3
  · subst hv1
    fin_cases h <;> decide
  · subst hv2
    fin_cases h <;> decide
  · subst hv3
    fin_cases h <;> decide
  · exact absurd h (Finset.not_mem_empty u)

theorem exK3_irr : ∀ v, v ∉ getNeighbors exK3 v := by
  intro v h
  rw [exK3_neighbors] at h
  split_ifs at h with hv1 hv2 hv3
  · subst hv1
    exact absurd h (by decide)
  · subst hv2
    exact absurd h (by decide)
  · subst hv3
    exact absurd h (by decide)
  · exact absurd h (Finset.not_mem_empty v)

/-- C7: on every finite graph whose adjacency is symmetric and
irreflexive (the invariants `GraphInstance.add_edge` establishes: both
directions are inserted and the documented edge form is `u < v`), each
of `greedy_coloring` (for any visiting order covering the vertices, so
for the default sorted order as well as any shuffle), `dsatur_coloring`
and `rlf_coloring` (for any behaviour of the `random.choice` oracle that
returns an element of its non-empty argument) assigns a color from
`{1, 2, ...}` to every vertex, and no two distinct adjacent vertices
receive the same color. -/
theorem claim_C7 (G : GraphInstance) (order : List ℕ)
    (pick1 pick2 : List ℕ → ℕ)
    (Hsym : ∀ u v, u ∈ getNeighbors G v → v ∈ getNeighbors G u)
    (Hirr : ∀ v, v ∉ getNeighbors G v)
    (Horder : ∀ v ∈ G.vertices, v ∈ order)
    (Hpick1 : ∀ l, l ≠ [] → pick1 l ∈ l)
    (Hpick2 : ∀ l, l ≠ [] → pick2 l ∈ l) :
    (properColors G (greedy_coloring G order) ∧
      ∀ v ∈ G.vertices, ∃ c,
        List.lookup v (greedy_coloring G order) = some c ∧ 1 ≤ c) ∧
    (properColors G (dsatur_coloring G pick1) ∧
      ∀ v ∈ G.vertices, ∃ c,
        List.lookup v (dsatur_coloring G pick1) = some c ∧ 1 ≤ c) ∧
    (properColors G (rlf_coloring G pick2) ∧
      ∀ v ∈ G.vertices, ∃ c,
        List.lookup v (rlf_coloring G pick2) = some c ∧ 1 ≤ c) := by
  have hnilD : properColors G ([] : List (ℕ × ℕ)) := by
    intro u v cu cv _ _ h
    simp [List.lookup] at h
  have hnilGe : colorsGe1 ([] : List (ℕ × ℕ)) := by
    intro v c h
    simp [List.lookup] at h
  refine ⟨⟨?_, ?_⟩, ⟨?_, ?_⟩, ⟨?_, ?_⟩⟩
  · exact greedy_fold_proper Hsym order [] hnilD
  · intro v hv
    have hs := @greedy_fold_total G order [] v (Or.inl (Horder v hv))
    obtain ⟨c, hc⟩ := Option.isSome_iff_exists.mp hs
    exact ⟨c, hc, greedy_fold_ge1 order [] hnilGe v c hc⟩
  · exact dsaturGo_proper Hsym G.vertices.card G.vertices [] hnilD
  · intro v hv
    have hs := @dsaturGo_total G pick1 Hpick1 G.vertices.card G.vertices []
      (Nat.le_refl _) v (Or.inl hv)
    obtain ⟨c, hc⟩ := Option.isSome_iff_exists.mp hs
    exact ⟨c, hc, dsaturGo_ge1 G.vertices.card G.vertices [] hnilGe v c hc⟩
  · exact (rlfOuter_proper Hsym Hpick2 G.vertices.card G.vertices 1 []
      (Nat.le_refl 1) (fun w c h => by simp [List.lookup] at h)
      hnilD hnilGe).1
  · intro v hv
    have hs := @rlfOuter_total G pick2 Hirr Hpick2 G.vertices.card G.vertices 1 []
      (Nat.le_refl _) (fun u _ => rfl) v (Or.inl hv)
    obtain ⟨c, hc⟩ := Option.isSome_iff_exists.mp hs
    exact ⟨c, hc, (rlfOuter_proper Hsym Hpick2 G.vertices.card G.vertices 1
      [] (Nat.le_refl 1) (fun w c h => by simp [List.lookup] at h)
      hnilD hnilGe).2 v c hc⟩

theorem claim_C7_witness :
    (properColors exK3 (greedy_coloring exK3 [1, 2, 3]) ∧
      ∀ v ∈ exK3.vertices, ∃ c,
        List.lookup v (greedy_coloring exK3 [1, 2, 3]) = some c ∧ 1 ≤ c) ∧
    (properColors exK3 (dsatur_coloring exK3 (fun l => l.headD 0)) ∧
      ∀ v ∈ exK3.vertices, ∃ c,
        List.lookup v (dsatur_coloring exK3 (fun l => l.headD 0)) = some c ∧
          1 ≤ c) ∧
    (properColors exK3 (rlf_coloring exK3 (fun l => l.headD 0)) ∧
      ∀ v ∈ exK3.vertices, ∃ c,
        List.lookup v (rlf_coloring exK3 (fun l => l.headD 0)) = some c ∧
          1 ≤ c) :=
  claim_C7 exK3 [1, 2, 3] (fun l => l.headD 0) (fun l => l.headD 0)
    exK3_sym exK3_irr (by decide) (fun l hl => headD_mem hl)
    (fun l hl => headD_mem hl)

end TT
